import Mathlib

/-!
Decimal-to-u64 fixed-width lexer and ten-pin scorer.

Sources: `c++/atoull/atoull.h.cpp` and `c++/tenpin/tenpin.cpp`.

Shallow embedding of `Lettvin::lexDecU64t`: the power-of-ten constants, the
two lookup tables `inv` and `col` as they are spelled by the initialiser
macros, the column step `DECU64COLPN`, the computed-goto table `DIGITS`
with its first-call filling, and `operator()`; and of `nTenPin::cPlayer`:
the functor `operator()` that records pinfalls and the score summation of
`display`.

Conventions of the embedding:
* `u64t` values are naturals, arithmetic on them is taken modulo `2 ^ 64`;
* a buffer is a map from addresses to bytes, the cursor is an address;
* `s08t` is plain `char`, signed on the GNU targets the file is written for,
  so `static_cast<int>(*s)` of a byte above 127 is negative;
* a table read outside a 256-entry row, and a jump through a null or
  missing table slot, have no defined result (`none`);
* the unrolled columns are those of the branch that is compiled, the `#else`
  branch of `#if Alternate` (`Alternate` is defined as 0).
-/

namespace Lettvin

/-- Number of values of the type `u64t` (`unsigned long long`). -/
def U64 : Nat := 2 ^ 64

/-- Unsigned 64-bit addition. -/
def add64 (a b : Nat) : Nat := (a + b) % U64

/-- Unsigned 64-bit subtraction. -/
def sub64 (a b : Nat) : Nat := (a + U64 - b % U64) % U64

/-- Unsigned 64-bit multiplication. -/
def mul64 (a b : Nat) : Nat := (a * b) % U64

/-- Conversion of a C++ `bool` to `u64t`, as done by `e |= (...)`. -/
def b2u (c : Bool) : Nat := if c then 1 else 0

namespace lexDecU64t

def zip : Nat := 0
def one : Nat := 1
def ten : Nat := 10
def top : Nat := 0xFFFFFFFFFFFFFFFF

/-- The constants `p0`, `p1`, ..., `pJ`: `p0 = one`, `p1 = ten` and each
later one is the previous one times `ten`, in `u64t` arithmetic. -/
def p : Nat → Nat
  | 0 => one
  | 1 => ten
  | n + 2 => mul64 (p (n + 1)) ten

end lexDecU64t

/-! ### The table-filling macros -/

def B00000010 {α : Type} (x : α) : List α := [x, x]
def B00000100 {α : Type} (x : α) : List α := B00000010 x ++ B00000010 x
def B00001000 {α : Type} (x : α) : List α := B00000100 x ++ B00000100 x
def B00010000 {α : Type} (x : α) : List α := B00001000 x ++ B00001000 x
def B00100000 {α : Type} (x : α) : List α := B00010000 x ++ B00010000 x
def B01000000 {α : Type} (x : α) : List α := B00100000 x ++ B00100000 x
def B10000000 {α : Type} (x : α) : List α := B01000000 x ++ B01000000 x
def B00110000 {α : Type} (x : α) : List α := B00100000 x ++ B00010000 x
def B11000110 {α : Type} (x : α) : List α :=
  B10000000 x ++ B01000000 x ++ B00000100 x ++ B00000010 x

def Bad48 : List Nat := B00110000 lexDecU64t.zip
def Bad198 : List Nat := B11000110 lexDecU64t.zip
def True48 : List Bool := B00110000 false
def True198 : List Bool := B11000110 false

/-- One row of `inv`: `{ True48, false, false, B00001000(a), True198 }`. -/
def invRow (a : Bool) : List Bool :=
  True48 ++ [false, false] ++ B00001000 a ++ True198

/-- The macro `BAD48L(L)`: one row of `col`, built on the constant `pL`. -/
def BAD48L (L : Nat) : List Nat :=
  Bad48 ++
    [0, mul64 1 (lexDecU64t.p L), mul64 2 (lexDecU64t.p L), mul64 3 (lexDecU64t.p L),
      mul64 4 (lexDecU64t.p L), mul64 5 (lexDecU64t.p L), mul64 6 (lexDecU64t.p L),
      mul64 7 (lexDecU64t.p L), mul64 8 (lexDecU64t.p L), mul64 9 (lexDecU64t.p L)] ++
    Bad198

namespace lexDecU64t

/-- The table `inv[20][256]` ("Table of digit validity for each column"). -/
def inv : List (List Bool) :=
  [ invRow false, invRow false, invRow false, invRow false, invRow false,
    invRow false, invRow false, invRow false, invRow false, invRow false,
    invRow false, invRow false, invRow false, invRow false, invRow false,
    invRow false, invRow false, invRow false, invRow false, invRow true ]

/-- The table `col[20][256]` ("Table of summable value for each column"). -/
def col : List (List Nat) :=
  [ BAD48L 0, BAD48L 1, BAD48L 2, BAD48L 3, BAD48L 4,
    BAD48L 5, BAD48L 6, BAD48L 7, BAD48L 8, BAD48L 9,
    BAD48L 10, BAD48L 11, BAD48L 12, BAD48L 13, BAD48L 14,
    BAD48L 15, BAD48L 16, BAD48L 17, BAD48L 18, BAD48L 19 ]

end lexDecU64t

/-- The value of `static_cast<int>(*s)` for the byte under the cursor:
`char` is signed, so bytes 128..255 come out as -128..-1. -/
def charIndex (c : Fin 256) : Int :=
  if c.val < 128 then (c.val : Int) else (c.val : Int) - 256

/-- Reading `table[n][i]`: defined only inside row `n`. -/
def tableAt {α : Type} (table : List (List α)) (n : Nat) : Int → Option α
  | Int.ofNat k => (table[n]?).bind (fun row => row[k]?)
  | Int.negSucc _ => none

/-- The variables a column step works on: the target `ull`, the cursor `s`,
the error flag `e` and the remaining budget `r`. -/
structure Regs where
  ull : Nat
  s : Nat
  e : Nat
  r : Nat
deriving DecidableEq, Repr

/-- The body of one column, the macro `DECU64COLPN(p, n)` of the branch
compiled under `#define Alternate 0`:
`e || (e|=inv[n][*s]) || (e|=((t=col[n][*s]) > r)) || ((r-=t), (ull+=t), (++s))`.
The first macro argument `p` is pasted into the label `c##p##n` only; both
table reads use the second argument `n`, which is the argument here. -/
def DECU64COLPN (buf : Nat → Fin 256) (n : Nat) (st : Regs) : Option Regs :=
  if st.e ≠ 0 then some st
  else
    match tableAt lexDecU64t.inv n (charIndex (buf st.s)) with
    | none => none
    | some bad =>
      let e1 := st.e ||| b2u bad
      if e1 ≠ 0 then some { st with e := e1 }
      else
        match tableAt lexDecU64t.col n (charIndex (buf st.s)) with
        | none => none
        | some t =>
          let e2 := e1 ||| b2u (decide (t > st.r))
          if e2 ≠ 0 then some { st with e := e2 }
          else some { ull := add64 st.ull t, s := st.s + 1, e := e2, r := sub64 st.r t }

/-- A slot of the jump table: still null, the label `err`, or a column
label `c19` ... `c00`. -/
inductive Label where
  | null : Label
  | err : Label
  | c (n : Nat) : Label
deriving DecidableEq, Repr

/-- The result of a call: the returned value (which is also what the target
holds), the cursor, the error flag, and the static jump table afterwards. -/
structure Out where
  ull : Nat
  s : Nat
  e : Nat
  DIGITS : List Label
deriving DecidableEq, Repr

namespace lexDecU64t

/-- The static table `DIGITS[256]` before the first call: all null. -/
def DIGITS0 : List Label := List.replicate 256 Label.null

/-- The table after `fill:`: every slot `err`, then slots 20 down to 1 set
to `c19` down to `c00`. -/
def fill : List Label :=
  (((((((((((((((((((((List.replicate 256 Label.err).set 20 (Label.c 19)).set 19
    (Label.c 18)).set 18 (Label.c 17)).set 17 (Label.c 16)).set 16 (Label.c 15)).set 15
    (Label.c 14)).set 14 (Label.c 13)).set 13 (Label.c 12)).set 12 (Label.c 11)).set 11
    (Label.c 10)).set 10 (Label.c 9)).set 9 (Label.c 8)).set 8 (Label.c 7)).set 7
    (Label.c 6)).set 6 (Label.c 5)).set 5 (Label.c 4)).set 4 (Label.c 3)).set 3
    (Label.c 2)).set 2 (Label.c 1)).set 1 (Label.c 0))

/-- The static table as a function of whether a call has filled it yet. -/
def DIGITS (filled : Bool) : List Label := if filled then fill else DIGITS0

/-- Falling through the unrolled columns from a label down to `c00`. The
labels are numbered 19 down to 0 as they are named: label `c19` is the
expansion of `DECU64COLPN(1, 9)`, ..., `c10` of `DECU64COLPN(1, 0)`, `c09` of
`DECU64COLPN(0, 9)`, ..., `c00` of `DECU64COLPN(0, 0)`. So the label numbered
`n` is `DECU64COLPN(n / 10, n % 10)` and reads the table rows `n % 10`. -/
def chain (buf : Nat → Fin 256) : Nat → Regs → Option Regs
  | 0, st => DECU64COLPN buf (0 % 10) st
  | n + 1, st => (DECU64COLPN buf ((n + 1) % 10) st).bind (chain buf n)

/-- The exit `err:` (`s = o; return ull = zip;`). -/
def err (D : List Label) (o e : Nat) : Out :=
  { ull := zip, s := o, e := e, DIGITS := D }

/-- The code after the last column: `e |= (ull < b); if (!e) return ull;`
and otherwise the exit `err:`. -/
def finish (D : List Label) (o b : Nat) (st : Regs) : Out :=
  let e := st.e ||| b2u (decide (st.ull < b))
  if e = 0 then { ull := st.ull, s := st.s, e := e, DIGITS := D } else err D o e

/-- The dispatch `run: goto *(DIGITS[d]);` and what follows it. -/
def run (D : List Label) (buf : Nat → Fin 256) (d o b : Nat) (st : Regs) : Option Out :=
  match D[d]? with
  | some (Label.c n) => (chain buf n st).map (finish D o b)
  | some Label.err => some (err D o st.e)
  | _ => none

/-- The call `operator()(ull, s, e, d, r, b)`, with the static table `D` as
it is on entry. On the first call (`DIGITS[0]` null) control goes to
`fill:` before `ull = zip` is executed and comes back at `run:`. -/
def operator (D : List Label) (ull : Nat) (buf : Nat → Fin 256) (s e d r b : Nat) :
    Option Out :=
  let o := s
  let e1 := e ||| b2u (decide (d > 20))
  if e1 ≠ 0 then some (err D o e1)
  else
    match D[0]? with
    | none => none
    | some Label.null => run fill buf d o b { ull := ull, s := s, e := e1, r := r }
    | some _ => run D buf d o b { ull := zip, s := s, e := e1, r := r }

end lexDecU64t

/-- A NUL-terminated C string laid out from address 0; the bytes after it
read as 0. -/
def cstr (str : String) : Nat → Fin 256 :=
  fun i => Fin.ofNat ((str.toList.map Char.toNat).getD i 0)


/-! ### Vocabulary of the claims -/

/-- The byte is one of the ASCII digits `'0'` .. `'9'`. -/
def isDigit (c : Fin 256) : Prop := 48 ≤ c.val ∧ c.val ≤ 57

instance (c : Fin 256) : Decidable (isDigit c) :=
  inferInstanceAs (Decidable (48 ≤ c.val ∧ c.val ≤ 57))

/-- The `d` bytes of the buffer that start at the cursor `s`. -/
def bytesAt (buf : Nat → Fin 256) (s d : Nat) : List (Fin 256) :=
  (List.range d).map (fun i => buf (s + i))

/-- The exact (unbounded) decimal value of a run of digit bytes, most
significant first. -/
def decimalValue (bs : List (Fin 256)) : Nat :=
  bs.foldl (fun acc c => 10 * acc + (c.val - 48)) 0

/-- Running the column body on the rows `k - 1` down to `0`, one after the
other. For `k` up to 10 this is what the labels `c09` .. `c00` do. -/
def scan (buf : Nat → Fin 256) : Nat → Regs → Option Regs
  | 0, st => some st
  | k + 1, st => (DECU64COLPN buf k st).bind (scan buf k)

/-- Calling `operator()` `n + 1` times in a row with the same request, each
call starting from the target, cursor, flag and static table the previous
one left. -/
def repeatCall (buf : Nat → Fin 256) (d r b : Nat) :
    Nat → List Label → Nat → Nat → Nat → Option Out
  | 0, D, ull, s, e => lexDecU64t.operator D ull buf s e d r b
  | n + 1, D, ull, s, e =>
    (lexDecU64t.operator D ull buf s e d r b).bind
      (fun out => repeatCall buf d r b n out.DIGITS out.ull out.s out.e)

/-- Running `j` columns of the chain one after the other from the label
numbered `n` downwards: labels `n`, `n - 1`, and so on, a label numbered `m`
reading the rows `m % 10` as in `lexDecU64t.chain`. With `n = d - 1` and
`j = k + 1` these are the columns that handle the bytes in positions 0 to
`k` of a `d`-digit request. -/
def columnRun (buf : Nat → Fin 256) : Nat → Nat → Regs → Option Regs
  | _, 0, st => some st
  | n, j + 1, st => (DECU64COLPN buf (n % 10) st).bind (columnRun buf (n - 1) j)

/-- Following the spec's words (parse operation, steps 1 to 4): a loop over
the `d` columns, most significant first. Pass `i` reads byte `i` from the
entry cursor `s0` and works with table row `d - 1 - i`: if the byte is
invalid for the column the flag is set and the scan is aborted; else, if its
weighted value exceeds the remaining budget, the flag is set and the scan is
aborted; otherwise the value is subtracted from the budget and added to the
result, and the cursor advances by one. The third argument counts the passes
still to do. -/
def columnLoop (buf : Nat → Fin 256) (s0 d : Nat) : Nat → Regs → Option Regs
  | 0, st => some st
  | m + 1, st =>
    match tableAt lexDecU64t.inv (d - 1 - (d - (m + 1)))
        (charIndex (buf (s0 + (d - (m + 1))))) with
    | none => none
    | some true => some { st with e := 1 }
    | some false =>
      match tableAt lexDecU64t.col (d - 1 - (d - (m + 1)))
          (charIndex (buf (s0 + (d - (m + 1))))) with
      | none => none
      | some t =>
        if t > st.r then some { st with e := 1 }
        else
          columnLoop buf s0 d m
            { ull := add64 st.ull t, s := st.s + 1, e := st.e, r := sub64 st.r t }

end Lettvin

/-! ### The ten-pin scorer

`size_t` values are naturals: every pinfall that is stored has passed the
test `pins > 10`, so no sum in the scorer comes near the range of the type.
The arrays are indexed by `round_`, 9, `i`, `i + 1` and, for `i < 9`,
`i + 2`, which stay within the eleven entries as long as `round_` is at most
10. The pinfall marks that `display` writes are left out; the numbers it
writes are kept. -/

namespace nTenPin

/-- The data members of `cPlayer` that `operator()` and the score summation
of `display` read or write: `total_`, `round_`, `ball_` and the two pinfall
arrays `pins_[0]` and `pins_[1]` (eleven entries each, the eleventh being the
bonus frame). `pins_ a i` stands for `pins_[a][i]`. -/
structure cPlayer where
  total_ : Nat
  round_ : Nat
  ball_ : Nat
  pins_ : Nat → Nat → Nat

namespace cPlayer

/-- The state the constructor leaves: counters 0, both arrays all 0. -/
def ctor : cPlayer :=
  { total_ := 0, round_ := 0, ball_ := 0, pins_ := fun _ _ => 0 }

/-- The arrays after the assignment `pins_[ ball_ ][ round_ ] = pins`. -/
def store (st : cPlayer) (pins : Nat) : Nat → Nat → Nat :=
  fun a i => if a = st.ball_ ∧ i = st.round_ then pins else st.pins_ a i

/-- The functor `cPlayer::operator()(pins)`: the state it leaves and the
message it throws, if any. Every `throw` comes before any assignment. -/
def operator (st : cPlayer) (pins : Nat) : cPlayer × Option String :=
  if pins > 10 then
    (st, some "1. too many pins for ball")
  else if st.round_ < 10 ∧ st.ball_ ≠ 0 ∧ st.pins_ 0 st.round_ + pins > 10 then
    (st, some "2. too many pins for standard frame")
  else if st.ball_ ≠ 0 ∧ st.pins_ 0 st.round_ + pins > 20 then
    (st, some "3. too many pins for bonus frame")
  else if st.round_ = 10 ∧ st.pins_ 0 9 = 10 then
    if st.ball_ < 2 then
      ({ st with pins_ := st.store pins, ball_ := st.ball_ + 1 }, none)
    else
      (st, some "4. >2 balls after final strike")
  else if st.round_ = 10 ∧ st.pins_ 0 9 + st.pins_ 1 9 = 10 then
    if st.ball_ < 1 then
      ({ st with pins_ := st.store pins, ball_ := st.ball_ + 1 }, none)
    else
      (st, some "5. >1 ball after final spare")
  else if st.round_ ≥ 10 then
    (st, some "6. too many frames")
  else if st.ball_ = 0 ∧ pins = 10 then
    ({ st with pins_ := st.store pins, round_ := st.round_ + 1 }, none)
  else if (st.ball_ + 1) &&& 1 = 0 then
    ({ st with pins_ := st.store pins, ball_ := (st.ball_ + 1) &&& 1,
               round_ := st.round_ + 1 }, none)
  else
    ({ st with pins_ := st.store pins, ball_ := (st.ball_ + 1) &&& 1 }, none)

/-- The value `current` of one pass `i` of the loop "Score summation". -/
def current (st : cPlayer) (i : Nat) : Nat :=
  let pins0 := st.pins_ 0 i
  let pins1 := st.pins_ 1 i
  let next0 := st.pins_ 0 (i + 1)
  let next1 := st.pins_ 1 (i + 1)
  let pins := pins1 + pins0
  if i = 9 then
    if pins0 = 10 then pins + (next0 + next1)
    else if pins = 10 then pins + next0
    else pins
  else
    if pins0 = 10 then
      if next0 = 10 then pins + (10 + st.pins_ 0 (i + 2))
      else pins + (next0 + next1)
    else if pins = 10 then pins + next0
    else pins

/-- The loop "Score summation" after `n` passes: the value of `total_` and
the running totals written to the stream so far. -/
def summation (st : cPlayer) : Nat → Nat × List Nat
  | 0 => (0, [])
  | n + 1 =>
    ((summation st n).1 + current st n,
      (summation st n).2 ++ [(summation st n).1 + current st n])

end cPlayer

/-- What `display` writes, apart from the pinfall marks: the complaint about
too few balls, or the ten running totals followed by the final total. -/
inductive Shown where
  | error (msg : String) : Shown
  | totals (running : List Nat) (total : Nat) : Shown
deriving DecidableEq, Repr

namespace cPlayer

/-- The method `cPlayer::display`: the state it leaves (`total_` is
recomputed) and what it writes. -/
def display (st : cPlayer) : cPlayer × Shown :=
  if st.round_ < 10 then
    (st, Shown.error "Error: 7. too few balls")
  else
    ({ st with total_ := (summation st 10).1 },
      Shown.totals (summation st 10).2 (summation st 10).1)

end cPlayer

/-- Calling `operator()` for each ball of a sequence in turn, up to the first
one that throws. -/
def feed (st : cPlayer) : List Nat → cPlayer × Option String
  | [] => (st, none)
  | b :: bs =>
    match st.operator b with
    | (st1, none) => feed st1 bs
    | (st1, some msg) => (st1, some msg)

/-- The ball of a sequence at a position, 0 when the sequence is shorter. -/
def ballAt (bs : List Nat) (j : Nat) : Nat := bs.getD j 0

/-- The position in the ball sequence at which each frame starts: a frame
that opens with 10 pins takes one ball, any other takes two. -/
def frameStart (bs : List Nat) : Nat → Nat
  | 0 => 0
  | i + 1 => frameStart bs i + (if ballAt bs (frameStart bs i) = 10 then 1 else 2)

end nTenPin

namespace Lettvin

/-! ### Arithmetic helpers -/

theorem lor_eq_zero {x y : Nat} : x ||| y = 0 ↔ x = 0 ∧ y = 0 := by
  constructor
  · intro h
    have key : ∀ i, x.testBit i = false ∧ y.testBit i = false := by
      intro i
      have hi := congrArg (fun z => Nat.testBit z i) h
      simpa using hi
    constructor
    · apply Nat.eq_of_testBit_eq
      intro i
      simp [(key i).1]
    · apply Nat.eq_of_testBit_eq
      intro i
      simp [(key i).2]
  · rintro ⟨rfl, rfl⟩
    simp

theorem lor_ne_zero_left {x : Nat} (y : Nat) (h : x ≠ 0) : x ||| y ≠ 0 :=
  fun h0 => h (lor_eq_zero.mp h0).1

theorem b2u_eq_zero {c : Bool} : b2u c = 0 ↔ c = false := by
  cases c <;> simp [b2u]

theorem sub64_of_le {r t : Nat} (h : t ≤ r) (hr : r < U64) : sub64 r t = r - t := by
  unfold sub64
  have ht : t % U64 = t := Nat.mod_eq_of_lt (lt_of_le_of_lt h hr)
  rw [ht]
  have e1 : r + U64 - t = (r - t) + U64 := by omega
  rw [e1, Nat.add_mod_right]
  exact Nat.mod_eq_of_lt (by omega)

theorem add64_add64 (a t u : Nat) : add64 (add64 a t) u = add64 a (t + u) := by
  unfold add64
  rw [Nat.mod_add_mod, Nat.add_assoc]

theorem add64_zero_of_lt {v : Nat} (h : v < U64) : add64 0 v = v := by
  unfold add64
  rw [Nat.zero_add]
  exact Nat.mod_eq_of_lt h

/-! ### What the tables hold -/

set_option maxRecDepth 100000 in
theorem rows_length :
    (∀ row ∈ lexDecU64t.inv, row.length = 256) ∧ (∀ row ∈ lexDecU64t.col, row.length = 256) ∧
      lexDecU64t.inv.length = 20 ∧ lexDecU64t.col.length = 20 := by
  decide

set_option maxRecDepth 100000 in
theorem digit_entries :
    ∀ n < 20, ∀ k < 10,
      tableAt lexDecU64t.inv n (Int.ofNat (48 + k)) = some (decide (n = 19 ∧ 2 ≤ k)) ∧
        tableAt lexDecU64t.col n (Int.ofNat (48 + k)) = some ((k * 10 ^ n) % 2 ^ 64) ∧
        (¬(n = 19 ∧ 2 ≤ k) → k * 10 ^ n < 2 ^ 64) := by
  decide


set_option maxRecDepth 100000 in
theorem fill_lookup :
    ∀ d ≤ 20, lexDecU64t.fill[d]? = some (if d = 0 then Label.err else Label.c (d - 1)) := by
  decide

theorem tableAt_defined {α : Type} (table : List (List α)) (hlen : table.length = 20)
    (hrows : ∀ row ∈ table, row.length = 256) {n k : Nat} (hn : n < 20) (hk : k < 256) :
    ∃ v, tableAt table n (Int.ofNat k) = some v := by
  have hn' : n < table.length := by omega
  have hk' : k < (table[n]).length := by
    rw [hrows _ (List.getElem_mem hn')]; exact hk
  refine ⟨(table[n])[k], ?_⟩
  simp [tableAt, List.getElem?_eq_getElem hn', List.getElem?_eq_getElem hk']

theorem charIndex_low {c : Fin 256} (h : c.val < 128) : charIndex c = Int.ofNat c.val := by
  simp [charIndex, h]

theorem charIndex_digit {c : Fin 256} (h : isDigit c) :
    charIndex c = Int.ofNat (48 + (c.val - 48)) := by
  obtain ⟨h1, h2⟩ := h
  rw [charIndex_low (by omega)]
  congr 1
  omega

/-! ### One column -/

theorem col_skip (buf : Nat → Fin 256) (n : Nat) {st : Regs} (h : st.e ≠ 0) :
    DECU64COLPN buf n st = some st := by
  simp [DECU64COLPN, h]

theorem col_congr {buf1 buf2 : Nat → Fin 256} (n : Nat) (st : Regs)
    (h : buf1 st.s = buf2 st.s) : DECU64COLPN buf1 n st = DECU64COLPN buf2 n st := by
  simp [DECU64COLPN, h]

/-- Whatever the tables hold, a column either leaves the flag set and the
cursor alone, or advances the cursor by one with the flag still clear. -/
theorem col_shape {buf : Nat → Fin 256} {n : Nat} {st st1 : Regs}
    (h : DECU64COLPN buf n st = some st1) :
    (st1.e ≠ 0 ∧ st1.s = st.s) ∨ (st.e = 0 ∧ st1.e = 0 ∧ st1.s = st.s + 1) := by
  unfold DECU64COLPN at h
  by_cases he : st.e = 0
  · rw [if_neg (by simpa using he)] at h
    cases hi : tableAt lexDecU64t.inv n (charIndex (buf st.s)) with
    | none => rw [hi] at h; cases h
    | some bad =>
      rw [hi] at h
      dsimp only at h
      by_cases h1 : st.e ||| b2u bad = 0
      · rw [if_neg (by simpa using h1)] at h
        cases hc : tableAt lexDecU64t.col n (charIndex (buf st.s)) with
        | none => rw [hc] at h; cases h
        | some t =>
          rw [hc] at h
          dsimp only at h
          by_cases h2 : (st.e ||| b2u bad) ||| b2u (decide (t > st.r)) = 0
          · rw [if_neg (by simpa using h2)] at h
            cases h
            exact Or.inr ⟨he, h2, rfl⟩
          · rw [if_pos h2] at h
            cases h
            exact Or.inl ⟨h2, rfl⟩
      · rw [if_pos h1] at h
        cases h
        exact Or.inl ⟨h1, rfl⟩
  · rw [if_pos he] at h
    cases h
    exact Or.inl ⟨he, rfl⟩

theorem col_defined (buf : Nat → Fin 256) {n : Nat} (hn : n < 20) (st : Regs)
    (h : (buf st.s).val < 128) : ∃ st1, DECU64COLPN buf n st = some st1 := by
  obtain ⟨hi, hc, hil, hcl⟩ := rows_length
  obtain ⟨bad, hbad⟩ := tableAt_defined lexDecU64t.inv hil hi hn
    (show (buf st.s).val < 256 by omega)
  obtain ⟨t, ht⟩ := tableAt_defined lexDecU64t.col hcl hc hn
    (show (buf st.s).val < 256 by omega)
  unfold DECU64COLPN
  rw [charIndex_low h, hbad, ht]
  dsimp only
  split_ifs <;> exact ⟨_, rfl⟩

/-- A digit byte in a column where it is admitted and fits the budget. -/
theorem col_digit_ok (buf : Nat → Fin 256) {n : Nat} (hn : n < 20) {st : Regs}
    (he : st.e = 0) (hd : isDigit (buf st.s))
    (htop : ¬(n = 19 ∧ 2 ≤ (buf st.s).val - 48))
    (hfit : ((buf st.s).val - 48) * 10 ^ n ≤ st.r) (hr : st.r < U64) :
    DECU64COLPN buf n st =
      some { ull := add64 st.ull (((buf st.s).val - 48) * 10 ^ n), s := st.s + 1, e := 0,
             r := st.r - ((buf st.s).val - 48) * 10 ^ n } := by
  have hk : (buf st.s).val - 48 < 10 := by
    obtain ⟨h1, h2⟩ := hd; omega
  obtain ⟨hi, hc, hlt⟩ := digit_entries n hn _ hk
  have hmod : (((buf st.s).val - 48) * 10 ^ n) % 2 ^ 64 = ((buf st.s).val - 48) * 10 ^ n :=
    Nat.mod_eq_of_lt (hlt htop)
  unfold DECU64COLPN
  rw [charIndex_digit hd, hi, hc, hmod]
  simp [he, b2u, htop, Nat.not_lt.mpr hfit, sub64_of_le hfit hr]

/-- A digit byte whose weighted value exceeds the remaining budget. -/
theorem col_digit_over (buf : Nat → Fin 256) {n : Nat} (hn : n < 20) {st : Regs}
    (he : st.e = 0) (hd : isDigit (buf st.s))
    (htop : ¬(n = 19 ∧ 2 ≤ (buf st.s).val - 48))
    (hover : st.r < ((buf st.s).val - 48) * 10 ^ n) :
    DECU64COLPN buf n st = some { st with e := 1 } := by
  have hk : (buf st.s).val - 48 < 10 := by
    obtain ⟨h1, h2⟩ := hd; omega
  obtain ⟨hi, hc, hlt⟩ := digit_entries n hn _ hk
  have hmod : (((buf st.s).val - 48) * 10 ^ n) % 2 ^ 64 = ((buf st.s).val - 48) * 10 ^ n :=
    Nat.mod_eq_of_lt (hlt htop)
  unfold DECU64COLPN
  rw [charIndex_digit hd, hi, hc, hmod]
  simp [he, b2u, htop, hover]

/-! ### The bytes under the cursor and their decimal value -/

theorem bytesAt_succ (buf : Nat → Fin 256) (s d : Nat) :
    bytesAt buf s (d + 1) = buf s :: bytesAt buf (s + 1) d := by
  unfold bytesAt
  rw [List.range_succ_eq_map, List.map_cons, List.map_map]
  congr 1
  apply List.map_congr_left
  intro i _
  simp only [Function.comp, Nat.succ_eq_add_one]
  congr 1
  omega

theorem bytesAt_length (buf : Nat → Fin 256) (s d : Nat) : (bytesAt buf s d).length = d := by
  simp [bytesAt]

theorem foldl_horner (bs : List (Fin 256)) (a : Nat) :
    bs.foldl (fun acc c => 10 * acc + (c.val - 48)) a =
      a * 10 ^ bs.length + bs.foldl (fun acc c => 10 * acc + (c.val - 48)) 0 := by
  induction bs generalizing a with
  | nil => simp
  | cons c cs ih =>
    simp only [List.foldl_cons, List.length_cons]
    rw [ih (10 * a + (c.val - 48)), ih (10 * 0 + (c.val - 48))]
    ring

theorem decimalValue_cons (c : Fin 256) (bs : List (Fin 256)) :
    decimalValue (c :: bs) = (c.val - 48) * 10 ^ bs.length + decimalValue bs := by
  unfold decimalValue
  rw [List.foldl_cons, foldl_horner]
  simp

theorem decimalValue_bytesAt_succ (buf : Nat → Fin 256) (s d : Nat) :
    decimalValue (bytesAt buf s (d + 1)) =
      ((buf s).val - 48) * 10 ^ d + decimalValue (bytesAt buf (s + 1) d) := by
  rw [bytesAt_succ, decimalValue_cons, bytesAt_length]

/-! ### Running several columns -/

theorem scan_skip (buf : Nat → Fin 256) (k : Nat) {st : Regs} (h : st.e ≠ 0) :
    scan buf k st = some st := by
  induction k with
  | zero => rfl
  | succ k ih => simp [scan, col_skip buf k h, ih]

theorem columnRun_skip (buf : Nat → Fin 256) (n j : Nat) {st : Regs} (h : st.e ≠ 0) :
    columnRun buf n j st = some st := by
  induction j generalizing n with
  | zero => rfl
  | succ j ih => rw [columnRun, col_skip buf (n % 10) h, Option.some_bind, ih]

/-- The chain entered at the label numbered `n` runs the `n + 1` columns of
the labels `n` down to 0. -/
theorem chain_eq_columnRun (buf : Nat → Fin 256) (n : Nat) (st : Regs) :
    lexDecU64t.chain buf n st = columnRun buf n (n + 1) st := by
  induction n generalizing st with
  | zero =>
    simp only [lexDecU64t.chain, columnRun]
    cases DECU64COLPN buf (0 % 10) st <;> rfl
  | succ n ih =>
    rw [lexDecU64t.chain, columnRun]
    congr 1
    funext st1
    exact ih st1

theorem columnRun_add (buf : Nat → Fin 256) (n j m : Nat) (st : Regs) :
    columnRun buf n (j + m) st = (columnRun buf n j st).bind (columnRun buf (n - j) m) := by
  induction j generalizing n st with
  | zero => simp [columnRun]
  | succ j ih =>
    rw [show j + 1 + m = (j + m) + 1 by omega, columnRun, columnRun]
    cases hc : DECU64COLPN buf (n % 10) st with
    | none => rfl
    | some st1 =>
      simp only [Option.some_bind]
      rw [ih, show n - 1 - j = n - (j + 1) by omega]

/-- If `j` columns of the chain end with the flag clear, it was clear before
them and the cursor has moved by exactly `j`. -/
theorem columnRun_shape {buf : Nat → Fin 256} {n j : Nat} {st st1 : Regs}
    (h : columnRun buf n j st = some st1) (he : st1.e = 0) :
    st.e = 0 ∧ st1.s = st.s + j := by
  induction j generalizing n st with
  | zero =>
    simp only [columnRun, Option.some.injEq] at h
    subst h
    exact ⟨he, rfl⟩
  | succ j ih =>
    rw [columnRun] at h
    cases hc : DECU64COLPN buf (n % 10) st with
    | none => rw [hc] at h; cases h
    | some st2 =>
      rw [hc] at h
      obtain ⟨h2e, h2s⟩ := ih h
      rcases col_shape hc with ⟨hne, _⟩ | ⟨h0, _, hs⟩
      · exact absurd h2e hne
      · exact ⟨h0, by rw [h2s, hs]; omega⟩

/-- The columns of the chain read nothing but the `j` bytes that start at
the cursor. -/
theorem columnRun_congr {buf1 buf2 : Nat → Fin 256} (n j : Nat) (st : Regs)
    (h : ∀ i, i < j → buf1 (st.s + i) = buf2 (st.s + i)) :
    columnRun buf1 n j st = columnRun buf2 n j st := by
  induction j generalizing n st with
  | zero => rfl
  | succ j ih =>
    have h0 : buf1 st.s = buf2 st.s := by simpa using h 0 (by omega)
    rw [columnRun, columnRun, ← col_congr (n % 10) st h0]
    cases hc : DECU64COLPN buf1 (n % 10) st with
    | none => rfl
    | some st2 =>
      simp only [Option.some_bind]
      rcases col_shape hc with ⟨hne, _⟩ | ⟨_, _, hs⟩
      · rw [columnRun_skip buf1 _ _ hne, columnRun_skip buf2 _ _ hne]
      · apply ih
        intro i hi
        rw [hs]
        have := h (i + 1) (by omega)
        rwa [show st.s + (i + 1) = st.s + 1 + i by omega] at this

/-- Bytes below 128 index inside the rows, so the columns of the chain have
a result. -/
theorem columnRun_defined (buf : Nat → Fin 256) (n j : Nat) (st : Regs)
    (h : ∀ i, i < j → (buf (st.s + i)).val < 128) :
    ∃ st1, columnRun buf n j st = some st1 := by
  induction j generalizing n st with
  | zero => exact ⟨st, rfl⟩
  | succ j ih =>
    obtain ⟨st2, hc⟩ :=
      col_defined buf (show n % 10 < 20 by omega) st (by simpa using h 0 (by omega))
    rw [columnRun, hc]
    simp only [Option.some_bind]
    rcases col_shape hc with ⟨hne, _⟩ | ⟨_, _, hs⟩
    · exact ⟨st2, columnRun_skip buf _ j hne⟩
    · apply ih
      intro i hi
      rw [hs]
      have := h (i + 1) (by omega)
      rwa [show st.s + (i + 1) = st.s + 1 + i by omega] at this

/-- Up to ten columns entered at a label `c09` .. `c00` use the rows of
their own numbers. -/
theorem scan_eq_columnRun (buf : Nat → Fin 256) {k : Nat} (hk : k ≤ 10) (st : Regs) :
    scan buf k st = columnRun buf (k - 1) k st := by
  induction k generalizing st with
  | zero => rfl
  | succ k ih =>
    rw [scan, columnRun, Nat.add_sub_cancel, Nat.mod_eq_of_lt (show k < 10 by omega)]
    congr 1
    funext st1
    exact ih (by omega) st1

theorem chain_eq_scan (buf : Nat → Fin 256) {n : Nat} (hn : n < 10) (st : Regs) :
    lexDecU64t.chain buf n st = scan buf (n + 1) st := by
  rw [chain_eq_columnRun, scan_eq_columnRun buf (show n + 1 ≤ 10 by omega), Nat.add_sub_cancel]

/-- The labels `c10` and above use the rows of their last digit: the `j`
columns from label `9 + j` down to label 10 use the rows `j - 1` down to 0. -/
theorem columnRun_high (buf : Nat → Fin 256) {j : Nat} (hj : j ≤ 10) (st : Regs) :
    columnRun buf (9 + j) j st = scan buf j st := by
  induction j generalizing st with
  | zero => rfl
  | succ j ih =>
    rw [scan, columnRun, show (9 + (j + 1)) % 10 = j by omega,
      show 9 + (j + 1) - 1 = 9 + j by omega]
    congr 1
    funext st1
    exact ih (by omega) st1

/-- A chain of more than ten columns: the first `j` columns use the rows
`j - 1` down to 0, and the last ten use the rows 9 down to 0. -/
theorem columnRun_long (buf : Nat → Fin 256) {j : Nat} (hj : j ≤ 10) (st : Regs) :
    columnRun buf (9 + j) (j + 10) st = (scan buf j st).bind (scan buf 10) := by
  rw [columnRun_add, columnRun_high buf hj, show 9 + j - j = 9 by omega]
  congr 1

/-- Digits whose decimal value fits the budget, read by up to ten columns
of the rows `k - 1` down to 0: every column succeeds, the target gains
exactly the value and the budget loses it. -/
theorem scan_ok (buf : Nat → Fin 256) {k : Nat} (hk : k ≤ 10) (st : Regs)
    (he : st.e = 0) (hr : st.r < U64) (hu : st.ull < U64)
    (hd : ∀ i, i < k → isDigit (buf (st.s + i)))
    (hv : decimalValue (bytesAt buf st.s k) ≤ st.r) :
    scan buf k st =
      some { ull := add64 st.ull (decimalValue (bytesAt buf st.s k)), s := st.s + k, e := 0,
             r := st.r - decimalValue (bytesAt buf st.s k) } := by
  induction k generalizing st with
  | zero =>
    have h0 : decimalValue (bytesAt buf st.s 0) = 0 := rfl
    rw [h0]
    simp only [scan, add64, Nat.add_zero, Nat.sub_zero, Nat.mod_eq_of_lt hu]
    cases st
    simp only at he
    subst he
    rfl
  | succ k ih =>
    rw [decimalValue_bytesAt_succ] at hv ⊢
    have hd0 : isDigit (buf st.s) := by simpa using hd 0 (by omega)
    have hfit : ((buf st.s).val - 48) * 10 ^ k ≤ st.r := by omega
    have htop : ¬(k = 19 ∧ 2 ≤ (buf st.s).val - 48) := fun h => by omega
    rw [scan, col_digit_ok buf (show k < 20 by omega) he hd0 htop hfit hr]
    simp only [Option.some_bind]
    rw [ih (by omega) _ rfl (by simp only; omega) (Nat.mod_lt _ (by norm_num [U64]))
      (by
        intro i hi
        have := hd (i + 1) (by omega)
        rwa [show st.s + (i + 1) = st.s + 1 + i by omega] at this)
      (by simp only; omega)]
    simp only [add64_add64]
    congr 2
    · omega
    · omega

/-- Digits whose decimal value exceeds the budget, read by up to ten columns
of the rows `k - 1` down to 0: some column sets the flag. -/
theorem scan_over (buf : Nat → Fin 256) {k : Nat} (hk : k ≤ 10) (st : Regs)
    (he : st.e = 0) (hr : st.r < U64)
    (hd : ∀ i, i < k → isDigit (buf (st.s + i)))
    (hv : st.r < decimalValue (bytesAt buf st.s k)) :
    ∃ st1, scan buf k st = some st1 ∧ st1.e ≠ 0 := by
  induction k generalizing st with
  | zero =>
    have h0 : decimalValue (bytesAt buf st.s 0) = 0 := rfl
    rw [h0] at hv
    exact absurd hv (Nat.not_lt_zero _)
  | succ k ih =>
    rw [decimalValue_bytesAt_succ] at hv
    have hd0 : isDigit (buf st.s) := by simpa using hd 0 (by omega)
    have hk' : k < 20 := by omega
    have htop : ¬(k = 19 ∧ 2 ≤ (buf st.s).val - 48) := fun h => by omega
    rw [scan]
    by_cases hfit : ((buf st.s).val - 48) * 10 ^ k ≤ st.r
    · rw [col_digit_ok buf hk' he hd0 htop hfit hr, Option.some_bind]
      have hr' : st.r - ((buf st.s).val - 48) * 10 ^ k < U64 := by omega
      have hv' : st.r - ((buf st.s).val - 48) * 10 ^ k <
          decimalValue (bytesAt buf (st.s + 1) k) := by omega
      have hd' : ∀ i, i < k → isDigit (buf (st.s + 1 + i)) := by
        intro i hi
        have := hd (i + 1) (by omega)
        rwa [show st.s + (i + 1) = st.s + 1 + i by omega] at this
      exact ih (by omega)
        { ull := add64 st.ull (((buf st.s).val - 48) * 10 ^ k), s := st.s + 1, e := 0,
          r := st.r - ((buf st.s).val - 48) * 10 ^ k } rfl hr' hd' hv'
    · rw [col_digit_over buf hk' he hd0 htop (Nat.lt_of_not_le hfit), Option.some_bind]
      have hne : ({ st with e := 1 } : Regs).e ≠ 0 := Nat.one_ne_zero
      exact ⟨{ st with e := 1 }, scan_skip buf k hne, hne⟩

/-- One column that ends with the flag clear has moved its weight from the
budget to the result, without wrapping. -/
theorem col_budget {buf : Nat → Fin 256} {n : Nat} {st st1 : Regs}
    (h : DECU64COLPN buf n st = some st1) (he : st1.e = 0) (hsum : st.ull + st.r < U64) :
    st1.ull + st1.r = st.ull + st.r ∧ st.ull ≤ st1.ull ∧ st1.r ≤ st.r := by
  unfold DECU64COLPN at h
  by_cases he0 : st.e = 0
  · rw [if_neg (by simpa using he0)] at h
    cases hi : tableAt lexDecU64t.inv n (charIndex (buf st.s)) with
    | none => rw [hi] at h; cases h
    | some bad =>
      rw [hi] at h
      dsimp only at h
      by_cases h1 : st.e ||| b2u bad = 0
      · rw [if_neg (by simpa using h1)] at h
        cases hc : tableAt lexDecU64t.col n (charIndex (buf st.s)) with
        | none => rw [hc] at h; cases h
        | some t =>
          rw [hc] at h
          dsimp only at h
          by_cases h2 : (st.e ||| b2u bad) ||| b2u (decide (t > st.r)) = 0
          · rw [if_neg (by simpa using h2)] at h
            cases h
            have ht : ¬ t > st.r := by
              simpa using b2u_eq_zero.mp (lor_eq_zero.mp h2).2
            have hle : t ≤ st.r := Nat.le_of_not_lt ht
            have hadd : add64 st.ull t = st.ull + t := by
              unfold add64
              exact Nat.mod_eq_of_lt (by omega)
            simp only [hadd, sub64_of_le hle (show st.r < U64 by omega)]
            omega
          · rw [if_pos h2] at h
            cases h
            exact absurd he h2
      · rw [if_pos h1] at h
        cases h
        exact absurd he h1
  · rw [if_pos he0] at h
    cases h
    exact absurd he he0

/-- The budget invariant for a run of columns entered with result plus
budget below 2^64: as long as the flag is clear, result plus budget is what
it was on entry. -/
theorem columnRun_budget {buf : Nat → Fin 256} {n j : Nat} {st st1 : Regs}
    (h : columnRun buf n j st = some st1) (he : st1.e = 0) (hsum : st.ull + st.r < U64) :
    st1.ull + st1.r = st.ull + st.r ∧ st.ull ≤ st1.ull ∧ st1.r ≤ st.r := by
  induction j generalizing n st with
  | zero =>
    simp only [columnRun, Option.some.injEq] at h
    subst h
    exact ⟨rfl, Nat.le_refl _, Nat.le_refl _⟩
  | succ j ih =>
    rw [columnRun] at h
    cases hc : DECU64COLPN buf (n % 10) st with
    | none => rw [hc] at h; cases h
    | some st2 =>
      rw [hc, Option.some_bind] at h
      have he2 : st2.e = 0 := by
        by_contra hne
        rw [columnRun_skip buf _ _ hne] at h
        cases h
        exact hne he
      obtain ⟨a1, a2, a3⟩ := col_budget hc he2 hsum
      obtain ⟨b1, b2, b3⟩ := ih h (by omega)
      exact ⟨by omega, by omega, by omega⟩


/-! ### The call as a whole -/

set_option maxRecDepth 100000 in
theorem DIGITS_zero_slot (filled : Bool) :
    (lexDecU64t.DIGITS filled)[0]? = some (if filled then Label.err else Label.null) := by
  cases filled <;> decide

theorem entry_flag_eq_zero {e d : Nat} :
    e ||| b2u (decide (d > 20)) = 0 ↔ e = 0 ∧ d ≤ 20 := by
  rw [lor_eq_zero, b2u_eq_zero]
  simp

/-- A call entered with the flag set, or asking for more than 20 digits,
leaves by `err:` at once, whatever the static table holds. -/
theorem operator_refused (D : List Label) (ull : Nat) (buf : Nat → Fin 256) (s e d r b : Nat)
    (h : e ≠ 0 ∨ 20 < d) :
    lexDecU64t.operator D ull buf s e d r b =
      some (lexDecU64t.err D s (e ||| b2u (decide (d > 20)))) := by
  have hne : e ||| b2u (decide (d > 20)) ≠ 0 := by
    rw [Ne, entry_flag_eq_zero]
    rcases h with h | h
    · exact fun hh => h hh.1
    · exact fun hh => absurd hh.2 (by omega)
  unfold lexDecU64t.operator
  simp only [hne, ne_eq, not_false_eq_true, if_true]

/-- A call with the flag clear and `d = 0` is dispatched to `err:`, which
does not touch the flag. -/
theorem operator_zero_digits (filled : Bool) (ull : Nat) (buf : Nat → Fin 256) (s r b : Nat) :
    lexDecU64t.operator (lexDecU64t.DIGITS filled) ull buf s 0 0 r b =
      some { ull := 0, s := s, e := 0, DIGITS := lexDecU64t.fill } := by
  have h0 : (0 : Nat) ||| b2u (decide (0 > 20)) = 0 := by decide
  have hf : lexDecU64t.fill[0]? = some Label.err := fill_lookup 0 (by omega)
  unfold lexDecU64t.operator
  simp only [h0, ne_eq, not_true_eq_false, if_false]
  cases filled
  · rw [DIGITS_zero_slot false]
    simp only [lexDecU64t.run, hf, lexDecU64t.err, lexDecU64t.zip]
    rfl
  · rw [DIGITS_zero_slot true]
    simp only [lexDecU64t.DIGITS, if_true, lexDecU64t.run, hf, lexDecU64t.err,
      lexDecU64t.zip]

/-- A call with the flag clear and `1 ≤ d ≤ 20` enters the chain at the
label numbered `d - 1`, runs its `d` columns and then the lower-bound check;
the target starts from 0 only when the table had already been filled. -/
theorem operator_run (filled : Bool) (ull : Nat) (buf : Nat → Fin 256) (s d r b : Nat)
    (h1 : 1 ≤ d) (h20 : d ≤ 20) :
    lexDecU64t.operator (lexDecU64t.DIGITS filled) ull buf s 0 d r b =
      (columnRun buf (d - 1) d { ull := if filled then 0 else ull, s := s, e := 0, r := r }).map
        (lexDecU64t.finish lexDecU64t.fill s b) := by
  have h0 : (0 : Nat) ||| b2u (decide (d > 20)) = 0 :=
    entry_flag_eq_zero.mpr ⟨rfl, h20⟩
  have hf : lexDecU64t.fill[d]? = some (Label.c (d - 1)) := by
    rw [fill_lookup d h20, if_neg (by omega)]
  have hd : d - 1 + 1 = d := by omega
  unfold lexDecU64t.operator
  simp only [h0, ne_eq, not_true_eq_false, if_false]
  cases filled
  · rw [DIGITS_zero_slot false]
    simp only [lexDecU64t.run, hf, chain_eq_columnRun, hd]
    rfl
  · rw [DIGITS_zero_slot true]
    simp only [lexDecU64t.DIGITS, if_true, lexDecU64t.run, hf, chain_eq_columnRun, hd,
      lexDecU64t.zip]

/-- For a digit count up to 10 the columns of the call use the rows `d - 1`
down to 0. -/
theorem operator_scan (filled : Bool) (ull : Nat) (buf : Nat → Fin 256) (s d r b : Nat)
    (h1 : 1 ≤ d) (h10 : d ≤ 10) :
    lexDecU64t.operator (lexDecU64t.DIGITS filled) ull buf s 0 d r b =
      (scan buf d { ull := if filled then 0 else ull, s := s, e := 0, r := r }).map
        (lexDecU64t.finish lexDecU64t.fill s b) := by
  rw [operator_run filled ull buf s d r b h1 (by omega), scan_eq_columnRun buf h10]

/-- For a digit count from 11 to 20 the first `d - 10` columns of the call
use the rows `d - 11` down to 0 and the last ten use the rows 9 down to 0. -/
theorem operator_scan_long (filled : Bool) (ull : Nat) (buf : Nat → Fin 256) (s d r b : Nat)
    (h11 : 11 ≤ d) (h20 : d ≤ 20) :
    lexDecU64t.operator (lexDecU64t.DIGITS filled) ull buf s 0 d r b =
      ((scan buf (d - 10) { ull := if filled then 0 else ull, s := s, e := 0, r := r }).bind
        (scan buf 10)).map (lexDecU64t.finish lexDecU64t.fill s b) := by
  have hlong := columnRun_long buf (show d - 10 ≤ 10 by omega)
    { ull := if filled then 0 else ull, s := s, e := 0, r := r }
  rw [show 9 + (d - 10) = d - 1 by omega, show d - 10 + 10 = d by omega] at hlong
  rw [operator_run filled ull buf s d r b (by omega) h20, hlong]

theorem finish_flag_set (D : List Label) (o b : Nat) {st : Regs} (h : st.e ≠ 0) :
    lexDecU64t.finish D o b st =
      lexDecU64t.err D o (st.e ||| b2u (decide (st.ull < b))) := by
  unfold lexDecU64t.finish
  simp only [lor_ne_zero_left _ h, if_false]

/-- The call on up to ten digits whose value lies within the bounds, made
with the table already filled or with a target that holds 0: the value comes
back exactly, the cursor has moved by `d`, the flag is clear. -/
theorem operator_digits_in_range (filled : Bool) (ull : Nat) (buf : Nat → Fin 256)
    (s d r b : Nat) (hstart : filled = true ∨ ull = 0) (h1 : 1 ≤ d) (h10 : d ≤ 10)
    (hr : r < U64) (hd : ∀ i, i < d → isDigit (buf (s + i)))
    (hhi : decimalValue (bytesAt buf s d) ≤ r) (hlo : b ≤ decimalValue (bytesAt buf s d)) :
    lexDecU64t.operator (lexDecU64t.DIGITS filled) ull buf s 0 d r b =
      some { ull := decimalValue (bytesAt buf s d), s := s + d, e := 0,
             DIGITS := lexDecU64t.fill } := by
  have hu : (if filled then 0 else ull) = 0 := by
    rcases hstart with h | h
    · simp [h]
    · simp [h]
  rw [operator_scan filled ull buf s d r b h1 h10, hu,
    scan_ok buf h10 { ull := 0, s := s, e := 0, r := r } rfl hr (by norm_num [U64]) hd hhi]
  simp only [Option.map_some', add64_zero_of_lt (lt_of_le_of_lt hhi hr)]
  unfold lexDecU64t.finish
  have hb : b2u (decide (decimalValue (bytesAt buf s d) < b)) = 0 :=
    b2u_eq_zero.mpr (by simpa using hlo)
  simp only [hb, Nat.or_zero, if_true]

/-- The call on up to ten digits whose exact value is above the upper bound:
the flag is set, 0 is returned and the cursor is where it was, on the first
call as on later ones. -/
theorem operator_digits_over (filled : Bool) (ull : Nat) (buf : Nat → Fin 256)
    (s d r b : Nat) (h1 : 1 ≤ d) (h10 : d ≤ 10) (hr : r < U64)
    (hd : ∀ i, i < d → isDigit (buf (s + i)))
    (hv : r < decimalValue (bytesAt buf s d)) :
    ∃ out, lexDecU64t.operator (lexDecU64t.DIGITS filled) ull buf s 0 d r b = some out ∧
      out.e ≠ 0 ∧ out.ull = 0 ∧ out.s = s := by
  obtain ⟨st1, hs, hne⟩ :=
    scan_over buf h10 { ull := if filled then 0 else ull, s := s, e := 0, r := r } rfl hr hd hv
  rw [operator_scan filled ull buf s d r b h1 h10, hs, Option.map_some',
    finish_flag_set _ _ _ hne]
  exact ⟨_, rfl, lor_ne_zero_left _ hne, rfl, rfl⟩

/-- The call on 11 to 20 digits, made with the table already filled or with
a target that holds 0: what comes back is the value of the first `d - 10`
digits plus the value of the last ten digits, whenever that sum lies within
the bounds; the cursor has moved by `d` and the flag is clear. -/
theorem operator_long_digits (filled : Bool) (ull : Nat) (buf : Nat → Fin 256)
    (s d r b : Nat) (hstart : filled = true ∨ ull = 0) (h11 : 11 ≤ d) (h20 : d ≤ 20)
    (hr : r < U64) (hd : ∀ i, i < d → isDigit (buf (s + i)))
    (hhi : decimalValue (bytesAt buf s (d - 10)) +
      decimalValue (bytesAt buf (s + (d - 10)) 10) ≤ r)
    (hlo : b ≤ decimalValue (bytesAt buf s (d - 10)) +
      decimalValue (bytesAt buf (s + (d - 10)) 10)) :
    lexDecU64t.operator (lexDecU64t.DIGITS filled) ull buf s 0 d r b =
      some { ull := decimalValue (bytesAt buf s (d - 10)) +
                decimalValue (bytesAt buf (s + (d - 10)) 10),
             s := s + d, e := 0, DIGITS := lexDecU64t.fill } := by
  have hu : (if filled then 0 else ull) = 0 := by
    rcases hstart with h | h
    · simp [h]
    · simp [h]
  have hU : (0 : Nat) < U64 := by norm_num [U64]
  have hd1 : ∀ i, i < d - 10 → isDigit (buf (s + i)) := fun i hi => hd i (by omega)
  have hd2 : ∀ i, i < 10 → isDigit (buf (s + (d - 10) + i)) := by
    intro i hi
    have := hd (d - 10 + i) (by omega)
    rwa [show s + (d - 10 + i) = s + (d - 10) + i by omega] at this
  rw [operator_scan_long filled ull buf s d r b h11 h20, hu,
    scan_ok buf (show d - 10 ≤ 10 by omega) { ull := 0, s := s, e := 0, r := r } rfl hr hU hd1
      (by simp only; omega),
    Option.some_bind,
    scan_ok buf (Nat.le_refl 10)
      { ull := add64 0 (decimalValue (bytesAt buf s (d - 10))), s := s + (d - 10), e := 0,
        r := r - decimalValue (bytesAt buf s (d - 10)) } rfl (by simp only; omega)
      (Nat.mod_lt _ hU) hd2 (by simp only; omega)]
  simp only [Option.map_some', add64_add64, Nat.zero_add]
  have hsum : add64 0 (decimalValue (bytesAt buf s (d - 10)) +
      decimalValue (bytesAt buf (s + (d - 10)) 10)) =
      decimalValue (bytesAt buf s (d - 10)) +
        decimalValue (bytesAt buf (s + (d - 10)) 10) :=
    add64_zero_of_lt (lt_of_le_of_lt hhi hr)
  unfold lexDecU64t.finish
  have hb : b2u (decide (decimalValue (bytesAt buf s (d - 10)) +
      decimalValue (bytesAt buf (s + (d - 10)) 10) < b)) = 0 :=
    b2u_eq_zero.mpr (by simpa using hlo)
  simp only [hsum, hb, Nat.or_zero, if_true, Out.mk.injEq, Option.some.injEq, and_true,
    true_and]
  omega


theorem finish_shape (D : List Label) (o b : Nat) (st : Regs) :
    ((lexDecU64t.finish D o b st).e ≠ 0 ∧ (lexDecU64t.finish D o b st).s = o ∧
        (lexDecU64t.finish D o b st).ull = 0) ∨
      ((lexDecU64t.finish D o b st).e = 0 ∧ st.e = 0 ∧
        (lexDecU64t.finish D o b st).s = st.s ∧ (lexDecU64t.finish D o b st).ull = st.ull ∧
        b ≤ st.ull) := by
  unfold lexDecU64t.finish
  by_cases h : st.e ||| b2u (decide (st.ull < b)) = 0
  · right
    obtain ⟨h1, h2⟩ := lor_eq_zero.mp h
    have h3 : ¬ st.ull < b := by simpa using b2u_eq_zero.mp h2
    simp only [h, if_true]
    exact ⟨trivial, h1, trivial, trivial, Nat.le_of_not_lt h3⟩
  · left
    simp only [h, if_false, lexDecU64t.err, lexDecU64t.zip]
    exact ⟨h, trivial, trivial⟩

/-- Every result of a call has one of two shapes: flag set, cursor at its
entry value and 0 returned; or flag clear and cursor `d` further. -/
theorem operator_shape (filled : Bool) (ull : Nat) (buf : Nat → Fin 256) (s e d r b : Nat)
    {out : Out}
    (h : lexDecU64t.operator (lexDecU64t.DIGITS filled) ull buf s e d r b = some out) :
    (out.e ≠ 0 ∧ out.s = s ∧ out.ull = 0) ∨ (out.e = 0 ∧ out.s = s + d) := by
  by_cases hre : e ≠ 0 ∨ 20 < d
  · rw [operator_refused _ ull buf s e d r b hre] at h
    cases h
    left
    refine ⟨?_, rfl, rfl⟩
    simp only [lexDecU64t.err]
    rw [Ne, entry_flag_eq_zero]
    rcases hre with h1 | h1
    · exact fun hh => h1 hh.1
    · exact fun hh => absurd hh.2 (by omega)
  · have he : e = 0 := by
      by_contra hne; exact hre (Or.inl hne)
    have h20 : d ≤ 20 := by
      by_contra hne; exact hre (Or.inr (by omega))
    subst he
    by_cases hd0 : d = 0
    · subst hd0
      rw [operator_zero_digits] at h
      cases h
      exact Or.inr ⟨rfl, rfl⟩
    · rw [operator_run filled ull buf s d r b (by omega) h20] at h
      cases hs : columnRun buf (d - 1) d
          { ull := if filled then 0 else ull, s := s, e := 0, r := r } with
      | none => rw [hs] at h; cases h
      | some st1 =>
        rw [hs] at h
        simp only [Option.map_some', Option.some.injEq] at h
        subst h
        rcases finish_shape lexDecU64t.fill s b st1 with hl | ⟨h1, h2, h3, _, _⟩
        · exact Or.inl hl
        · right
          refine ⟨h1, ?_⟩
          rw [h3]
          exact (columnRun_shape hs h2).2

/-- A call whose scanned bytes are all below 128 has a result. -/
theorem operator_defined (filled : Bool) (ull : Nat) (buf : Nat → Fin 256) (s e d r b : Nat)
    (hlow : ∀ i, i < d → (buf (s + i)).val < 128) :
    ∃ out, lexDecU64t.operator (lexDecU64t.DIGITS filled) ull buf s e d r b = some out := by
  by_cases hre : e ≠ 0 ∨ 20 < d
  · exact ⟨_, operator_refused _ ull buf s e d r b hre⟩
  · have he : e = 0 := by
      by_contra hne; exact hre (Or.inl hne)
    have h20 : d ≤ 20 := by
      by_contra hne; exact hre (Or.inr (by omega))
    subst he
    by_cases hd0 : d = 0
    · subst hd0
      exact ⟨_, operator_zero_digits filled ull buf s r b⟩
    · rw [operator_run filled ull buf s d r b (by omega) h20]
      obtain ⟨st1, hs⟩ :=
        columnRun_defined buf (d - 1) d
          { ull := if filled then 0 else ull, s := s, e := 0, r := r } hlow
      rw [hs]
      exact ⟨_, rfl⟩

/-- Two buffers that agree on the `d` bytes from the cursor give the same
call the same result. -/
theorem operator_congr (filled : Bool) (ull : Nat) (buf1 buf2 : Nat → Fin 256)
    (s e d r b : Nat) (hagree : ∀ i, i < d → buf1 (s + i) = buf2 (s + i)) :
    lexDecU64t.operator (lexDecU64t.DIGITS filled) ull buf1 s e d r b =
      lexDecU64t.operator (lexDecU64t.DIGITS filled) ull buf2 s e d r b := by
  by_cases hre : e ≠ 0 ∨ 20 < d
  · rw [operator_refused _ ull buf1 s e d r b hre, operator_refused _ ull buf2 s e d r b hre]
  · have he : e = 0 := by
      by_contra hne; exact hre (Or.inl hne)
    have h20 : d ≤ 20 := by
      by_contra hne; exact hre (Or.inr (by omega))
    subst he
    by_cases hd0 : d = 0
    · subst hd0
      rw [operator_zero_digits, operator_zero_digits]
    · rw [operator_run filled ull buf1 s d r b (by omega) h20,
        operator_run filled ull buf2 s d r b (by omega) h20,
        columnRun_congr (d - 1) d
          { ull := if filled then 0 else ull, s := s, e := 0, r := r } hagree]

theorem repeatCall_refused (D : List Label) (buf : Nat → Fin 256) (s d r b : Nat)
    (n : Nat) (ull e : Nat) (he : e ≠ 0) :
    repeatCall buf d r b n D ull s e =
      some { ull := 0, s := s, e := e ||| b2u (decide (d > 20)), DIGITS := D } := by
  induction n generalizing ull e with
  | zero =>
    rw [repeatCall, operator_refused D ull buf s e d r b (Or.inl he)]
    rfl
  | succ n ih =>
    rw [repeatCall, operator_refused D ull buf s e d r b (Or.inl he), Option.some_bind]
    simp only [lexDecU64t.err]
    rw [ih _ _ (lor_ne_zero_left _ he), Nat.or_assoc, Nat.or_self]


/-! ### The claims -/

set_option maxRecDepth 100000

/-- C1, evaluated where it fails. On the first call the jump table is still
empty, control passes through `fill:` and reaches the columns without
`ull = zip` having run, so the digits are added to whatever the target held:
with 5 in the target, the four digit bytes "0012" (value 12, within the
default bounds) come back as 17, not 12. -/
theorem C1_first_call_adds_to_target :
    (∀ i, i < 4 → isDigit (cstr "0012" (0 + i))) ∧
      decimalValue (bytesAt (cstr "0012") 0 4) = 12 ∧
      lexDecU64t.operator (lexDecU64t.DIGITS false) 5 (cstr "0012") 0 0 4 lexDecU64t.top 0 =
        some { ull := 17, s := 4, e := 0, DIGITS := lexDecU64t.fill } := by
  decide

/-- C2. A call entered with the error flag set returns 0, leaves the cursor
at its entry value and leaves the flag set, whatever the buffer, the digit
count, the bounds, the target and the static table; calling again any number
of times, each time from what the previous call left, gives that same
outcome. -/
theorem C2_flag_set_on_entry (D : List Label) (ull : Nat) (buf : Nat → Fin 256)
    (s e d r b : Nat) (he : e ≠ 0) :
    lexDecU64t.operator D ull buf s e d r b =
        some { ull := 0, s := s, e := e ||| b2u (decide (d > 20)), DIGITS := D } ∧
      e ||| b2u (decide (d > 20)) ≠ 0 ∧
      ∀ n, repeatCall buf d r b n D ull s e =
        some { ull := 0, s := s, e := e ||| b2u (decide (d > 20)), DIGITS := D } :=
  ⟨operator_refused D ull buf s e d r b (Or.inl he), lor_ne_zero_left _ he,
    fun n => repeatCall_refused D buf s d r b n ull e he⟩

theorem C2_flag_set_on_entry_witness :
    lexDecU64t.operator lexDecU64t.fill 9 (cstr "123") 0 1 3 lexDecU64t.top 0 =
        some { ull := 0, s := 0, e := 1 ||| b2u (decide (3 > 20)), DIGITS := lexDecU64t.fill } ∧
      1 ||| b2u (decide (3 > 20)) ≠ 0 ∧
      ∀ n, repeatCall (cstr "123") 3 lexDecU64t.top 0 n lexDecU64t.fill 9 0 1 =
        some { ull := 0, s := 0, e := 1 ||| b2u (decide (3 > 20)), DIGITS := lexDecU64t.fill } :=
  C2_flag_set_on_entry lexDecU64t.fill 9 (cstr "123") 0 1 3 lexDecU64t.top 0 (by decide)

/-- C3, evaluated where it fails. A call with the flag clear and a digit
count of 0 is dispatched through `DIGITS[0]` to the exit `err:`, which
restores the cursor and returns 0 but does not set the flag: the flag is
still clear on exit, on the first call and on every later one. -/
theorem C3_zero_digit_count_leaves_flag_clear (filled : Bool) (ull : Nat)
    (buf : Nat → Fin 256) (s r b : Nat) :
    ∃ out, lexDecU64t.operator (lexDecU64t.DIGITS filled) ull buf s 0 0 r b = some out ∧
      out.e = 0 :=
  ⟨_, operator_zero_digits filled ull buf s r b, rfl⟩

/-- C4. For a digit count of 0 or above 20 the call returns 0 and leaves the
cursor at its entry value, and its whole result is the same for any two
buffers: no byte is read. -/
theorem C4_bad_digit_count_reads_nothing (filled : Bool) (ull : Nat)
    (buf1 buf2 : Nat → Fin 256) (s e d r b : Nat) (hd : d = 0 ∨ 20 < d) :
    lexDecU64t.operator (lexDecU64t.DIGITS filled) ull buf1 s e d r b =
        lexDecU64t.operator (lexDecU64t.DIGITS filled) ull buf2 s e d r b ∧
      ∃ out, lexDecU64t.operator (lexDecU64t.DIGITS filled) ull buf1 s e d r b = some out ∧
        out.ull = 0 ∧ out.s = s := by
  by_cases hre : e ≠ 0 ∨ 20 < d
  · rw [operator_refused _ ull buf1 s e d r b hre, operator_refused _ ull buf2 s e d r b hre]
    exact ⟨rfl, _, rfl, rfl, rfl⟩
  · have he : e = 0 := by
      by_contra hne; exact hre (Or.inl hne)
    have hd0 : d = 0 := by
      rcases hd with h | h
      · exact h
      · exact absurd (Or.inr h) hre
    subst he
    subst hd0
    rw [operator_zero_digits, operator_zero_digits]
    exact ⟨rfl, _, rfl, rfl, rfl⟩

theorem C4_bad_digit_count_reads_nothing_witness :
    lexDecU64t.operator (lexDecU64t.DIGITS true) 9 (cstr "300000000000000000000") 4 0 21
          lexDecU64t.top 0 =
        lexDecU64t.operator (lexDecU64t.DIGITS true) 9 (cstr "") 4 0 21 lexDecU64t.top 0 ∧
      ∃ out, lexDecU64t.operator (lexDecU64t.DIGITS true) 9 (cstr "300000000000000000000") 4 0
          21 lexDecU64t.top 0 = some out ∧ out.ull = 0 ∧ out.s = 4 :=
  C4_bad_digit_count_reads_nothing true 9 (cstr "300000000000000000000") (cstr "") 4 0 21
    lexDecU64t.top 0 (by decide)

/-- C5, evaluated where it fails. Every row of `inv` holds `false` at all
non-digit bytes (the macros `True48` and `True198` expand to `false`), and
`col` holds 0 there, so a non-digit byte is taken as the digit 0: "1a" with
digit count 2 gives 10 with the cursor advanced by 2 and the flag clear, and
the terminating NUL of the empty string with digit count 1 gives 0 with the
cursor advanced past it and the flag clear. -/
theorem C5_non_digit_byte_is_accepted :
    ¬ isDigit (cstr "1a" 1) ∧
      lexDecU64t.operator (lexDecU64t.DIGITS true) 0 (cstr "1a") 0 0 2 lexDecU64t.top 0 =
        some { ull := 10, s := 2, e := 0, DIGITS := lexDecU64t.fill } ∧
      ¬ isDigit (cstr "" 0) ∧
      lexDecU64t.operator (lexDecU64t.DIGITS true) 0 (cstr "") 0 0 1 lexDecU64t.top 0 =
        some { ull := 0, s := 1, e := 0, DIGITS := lexDecU64t.fill } := by
  decide

/-- C6, evaluated where it fails. The labels `c19` .. `c10` read the table
rows 9 .. 0, like the labels `c09` .. `c00`, so with digit count 20 the first
ten digits carry the weights of the last ten. On a call with the table
filled, "18446744073709551615" under the default bounds returns
1844674407 + 3709551615 = 5554226022, not 2^64 - 1, and
"18446744073709551616" is accepted: it returns 5554226023 with the cursor
advanced by 20 and the flag clear. On the first call with 1 in the target
the two texts return 5554226023 and 5554226024. -/
theorem C6_boundary_values :
    lexDecU64t.operator (lexDecU64t.DIGITS true) 1 (cstr "18446744073709551615") 0 0 20
          lexDecU64t.top 0 =
        some { ull := 5554226022, s := 20, e := 0, DIGITS := lexDecU64t.fill } ∧
      lexDecU64t.operator (lexDecU64t.DIGITS true) 1 (cstr "18446744073709551616") 0 0 20
          lexDecU64t.top 0 =
        some { ull := 5554226023, s := 20, e := 0, DIGITS := lexDecU64t.fill } ∧
      lexDecU64t.operator (lexDecU64t.DIGITS false) 1 (cstr "18446744073709551615") 0 0 20
          lexDecU64t.top 0 =
        some { ull := 5554226023, s := 20, e := 0, DIGITS := lexDecU64t.fill } ∧
      lexDecU64t.operator (lexDecU64t.DIGITS false) 1 (cstr "18446744073709551616") 0 0 20
          lexDecU64t.top 0 =
        some { ull := 5554226024, s := 20, e := 0, DIGITS := lexDecU64t.fill } := by
  decide


/-- C7, evaluated where it fails. The twenty digits "18446744073709551616"
have the exact value 2^64, above the default upper bound 2^64 - 1, and the
call with the table filled accepts them: it returns 5554226023 with the
cursor advanced by 20 and the flag clear. The eleven digits "20000000000"
have the value 20000000000, above the upper bound 10000000000, and the call
returns 2 with the cursor advanced by 11 and the flag clear: the label `c10`
reads row 0, so the leading digit is weighted by 1. -/
theorem C7_value_above_upper_bound_accepted :
    (∀ i, i < 20 → isDigit (cstr "18446744073709551616" (0 + i))) ∧
      decimalValue (bytesAt (cstr "18446744073709551616") 0 20) = 18446744073709551616 ∧
      lexDecU64t.top < 18446744073709551616 ∧
      lexDecU64t.operator (lexDecU64t.DIGITS true) 0 (cstr "18446744073709551616") 0 0 20
          lexDecU64t.top 0 =
        some { ull := 5554226023, s := 20, e := 0, DIGITS := lexDecU64t.fill } ∧
      (∀ i, i < 11 → isDigit (cstr "20000000000" (0 + i))) ∧
      decimalValue (bytesAt (cstr "20000000000") 0 11) = 20000000000 ∧
      lexDecU64t.operator (lexDecU64t.DIGITS true) 0 (cstr "20000000000") 0 0 11
          10000000000 0 =
        some { ull := 2, s := 11, e := 0, DIGITS := lexDecU64t.fill } := by
  decide

/-- C8, evaluated where it fails and where it holds. On the first call with
5 in the target, "2" with digit count 1 and lower bound 3 is accepted: the
lower-bound test sees 5 + 2 = 7, the call returns 7 with the cursor advanced
and the flag clear. On a call with the table filled the same request is
rejected: flag set, 0 returned, cursor restored. -/
theorem C8_lower_bound_on_first_call :
    (∀ i, i < 1 → isDigit (cstr "2" (0 + i))) ∧
      decimalValue (bytesAt (cstr "2") 0 1) = 2 ∧
      lexDecU64t.operator (lexDecU64t.DIGITS false) 5 (cstr "2") 0 0 1 lexDecU64t.top 3 =
        some { ull := 7, s := 1, e := 0, DIGITS := lexDecU64t.fill } ∧
      lexDecU64t.operator (lexDecU64t.DIGITS true) 5 (cstr "2") 0 0 1 lexDecU64t.top 3 =
        some { ull := 0, s := 0, e := 1, DIGITS := lexDecU64t.fill } := by
  decide

/-- C9. Atomicity of the cursor: whenever a call has a result, either the
error flag is set on exit, the cursor equals its entry value and 0 is
returned, or the flag is clear on exit and the cursor equals its entry value
plus the digit count; and a call has a result whenever the bytes it may scan
are below 128. -/
theorem C9_cursor_atomic (filled : Bool) (ull : Nat) (buf : Nat → Fin 256)
    (s e d r b : Nat) :
    ((∀ i, i < d → (buf (s + i)).val < 128) →
        ∃ out, lexDecU64t.operator (lexDecU64t.DIGITS filled) ull buf s e d r b = some out) ∧
      ∀ out, lexDecU64t.operator (lexDecU64t.DIGITS filled) ull buf s e d r b = some out →
        (out.e ≠ 0 → out.s = s ∧ out.ull = 0) ∧ (out.e = 0 → out.s = s + d) := by
  refine ⟨operator_defined filled ull buf s e d r b, ?_⟩
  intro out h
  rcases operator_shape filled ull buf s e d r b h with ⟨h1, h2, h3⟩ | ⟨h1, h2⟩
  · exact ⟨fun _ => ⟨h2, h3⟩, fun h0 => absurd h0 h1⟩
  · exact ⟨fun hne => absurd h1 hne, fun _ => h2⟩

theorem C9_cursor_atomic_witness :
    ∃ out, lexDecU64t.operator (lexDecU64t.DIGITS true) 0 (cstr "1844674407370955161x") 0 0
        20 1000 0 = some out ∧
      (out.e ≠ 0 → out.s = 0 ∧ out.ull = 0) ∧ (out.e = 0 → out.s = 0 + 20) :=
  match (C9_cursor_atomic true 0 (cstr "1844674407370955161x") 0 0 20 1000 0).1
    (by decide) with
  | ⟨out, ho⟩ =>
    ⟨out, ho, (C9_cursor_atomic true 0 (cstr "1844674407370955161x") 0 0 20 1000 0).2 out ho⟩

/-- C10. The call consumes exactly the first `d` bytes: two buffers that
agree on the `d` bytes from the cursor give the same returned value, flag,
cursor and table, whatever follows those bytes, and a call that leaves the
flag clear leaves the cursor at byte `d`. -/
theorem C10_only_first_d_bytes (filled : Bool) (ull : Nat) (buf1 buf2 : Nat → Fin 256)
    (s e d r b : Nat) (hagree : ∀ i, i < d → buf1 (s + i) = buf2 (s + i)) :
    lexDecU64t.operator (lexDecU64t.DIGITS filled) ull buf1 s e d r b =
        lexDecU64t.operator (lexDecU64t.DIGITS filled) ull buf2 s e d r b ∧
      ∀ out, lexDecU64t.operator (lexDecU64t.DIGITS filled) ull buf1 s e d r b = some out →
        out.e = 0 → out.s = s + d := by
  refine ⟨operator_congr filled ull buf1 buf2 s e d r b hagree, ?_⟩
  intro out h h0
  rcases operator_shape filled ull buf1 s e d r b h with ⟨h1, _, _⟩ | ⟨_, h2⟩
  · exact absurd h0 h1
  · exact h2

theorem C10_only_first_d_bytes_witness :
    (lexDecU64t.operator (lexDecU64t.DIGITS true) 0 (cstr "12345") 0 0 3 lexDecU64t.top 0 =
        lexDecU64t.operator (lexDecU64t.DIGITS true) 0 (cstr "123xy") 0 0 3 lexDecU64t.top 0 ∧
      ∀ out, lexDecU64t.operator (lexDecU64t.DIGITS true) 0 (cstr "12345") 0 0 3
          lexDecU64t.top 0 = some out → out.e = 0 → out.s = 0 + 3) ∧
      lexDecU64t.operator (lexDecU64t.DIGITS true) 0 (cstr "12345") 0 0 3 lexDecU64t.top 0 =
        some { ull := 123, s := 3, e := 0, DIGITS := lexDecU64t.fill } :=
  ⟨C10_only_first_d_bytes true 0 (cstr "12345") (cstr "123xy") 0 0 3 lexDecU64t.top 0
    (by decide), by decide⟩


/-- C11, evaluated where it fails and where it holds. With the table filled
the text "18446744073709551615" of the value 2^64 - 1, parsed with digit
count 20 and the default bounds, returns 5554226022: the labels `c19` ..
`c10` read the rows 9 .. 0. On the first call with 5 in the target, the text
"10" of the value 10, parsed with digit count 2, returns 15: the target is
not zeroed. With the table filled the texts of 0, 1, 10 and 9999999999 come
back exactly, with the cursor advanced by the length of the text and the
flag clear. -/
theorem C11_round_trip_not_exact :
    lexDecU64t.operator (lexDecU64t.DIGITS true) 5 (cstr "18446744073709551615") 0 0 20
          lexDecU64t.top 0 =
        some { ull := 5554226022, s := 20, e := 0, DIGITS := lexDecU64t.fill } ∧
      lexDecU64t.operator (lexDecU64t.DIGITS false) 5 (cstr "10") 0 0 2 lexDecU64t.top 0 =
        some { ull := 15, s := 2, e := 0, DIGITS := lexDecU64t.fill } ∧
      lexDecU64t.operator (lexDecU64t.DIGITS true) 5 (cstr "0") 0 0 1 lexDecU64t.top 0 =
        some { ull := 0, s := 1, e := 0, DIGITS := lexDecU64t.fill } ∧
      lexDecU64t.operator (lexDecU64t.DIGITS true) 5 (cstr "1") 0 0 1 lexDecU64t.top 0 =
        some { ull := 1, s := 1, e := 0, DIGITS := lexDecU64t.fill } ∧
      lexDecU64t.operator (lexDecU64t.DIGITS true) 5 (cstr "10") 0 0 2 lexDecU64t.top 0 =
        some { ull := 10, s := 2, e := 0, DIGITS := lexDecU64t.fill } ∧
      lexDecU64t.operator (lexDecU64t.DIGITS true) 5 (cstr "9999999999") 0 0 10
          lexDecU64t.top 0 =
        some { ull := 9999999999, s := 10, e := 0, DIGITS := lexDecU64t.fill } := by
  decide

/-- C12, evaluated where it fails. With digit count 20 the first byte is
handled by the label `c19`, which reads row 9 of the tables, not row 19: the
only row of `inv` that rejects `'2'` .. `'9'` is never read. With the table
filled and the default bounds, "20000000000000000000" returns 2000000000 and
"90000000000000000000" returns 9000000000, each with the cursor advanced by
20 and the flag clear. -/
theorem C12_top_digit_accepted :
    50 ≤ (cstr "20000000000000000000" 0).val ∧ (cstr "20000000000000000000" 0).val ≤ 57 ∧
      lexDecU64t.operator (lexDecU64t.DIGITS true) 0 (cstr "20000000000000000000") 0 0 20
          lexDecU64t.top 0 =
        some { ull := 2000000000, s := 20, e := 0, DIGITS := lexDecU64t.fill } ∧
      50 ≤ (cstr "90000000000000000000" 0).val ∧ (cstr "90000000000000000000" 0).val ≤ 57 ∧
      lexDecU64t.operator (lexDecU64t.DIGITS true) 0 (cstr "90000000000000000000") 0 0 20
          lexDecU64t.top 0 =
        some { ull := 9000000000, s := 20, e := 0, DIGITS := lexDecU64t.fill } := by
  decide

/-- C13, evaluated where it fails. On the first call with 5 in the target,
"2" with digit count 1, upper bound 3 and lower bound 0 returns 7 with the
flag clear: the returned value is above the upper bound. With the table
filled the same request returns 2. -/
theorem C13_result_above_upper_bound_on_first_call :
    lexDecU64t.operator (lexDecU64t.DIGITS false) 5 (cstr "2") 0 0 1 3 0 =
        some { ull := 7, s := 1, e := 0, DIGITS := lexDecU64t.fill } ∧
      ¬ (7 ≤ 3) ∧
      lexDecU64t.operator (lexDecU64t.DIGITS true) 5 (cstr "2") 0 0 1 3 0 =
        some { ull := 2, s := 1, e := 0, DIGITS := lexDecU64t.fill } := by
  decide

/-- C14, evaluated where it fails. The same buffer, cursor, flag, digit
count and bounds give different returned values depending on whether the
call is the first one (17) or a later one (12), and, on the first call,
depending on what the target held before (17 for 5, 18 for 6). -/
theorem C14_result_depends_on_target_and_first_call :
    lexDecU64t.operator (lexDecU64t.DIGITS false) 5 (cstr "0012") 0 0 4 lexDecU64t.top 0 =
        some { ull := 17, s := 4, e := 0, DIGITS := lexDecU64t.fill } ∧
      lexDecU64t.operator (lexDecU64t.DIGITS true) 5 (cstr "0012") 0 0 4 lexDecU64t.top 0 =
        some { ull := 12, s := 4, e := 0, DIGITS := lexDecU64t.fill } ∧
      lexDecU64t.operator (lexDecU64t.DIGITS false) 6 (cstr "0012") 0 0 4 lexDecU64t.top 0 =
        some { ull := 18, s := 4, e := 0, DIGITS := lexDecU64t.fill } := by
  decide

/-! ### The tables, entry by entry -/

theorem inv_rows : ∀ c < 20, lexDecU64t.inv[c]? = some (invRow (decide (c = 19))) := by
  decide

theorem invRow_entries :
    ∀ a : Bool, ∀ b < 256, (invRow a)[b]? = some (a && decide (50 ≤ b ∧ b ≤ 57)) := by
  decide

/-- Every entry of `inv`: true exactly in row 19 at the bytes `'2'` .. `'9'`. -/
theorem inv_entries {c b : Nat} (hc : c < 20) (hb : b < 256) :
    tableAt lexDecU64t.inv c (Int.ofNat b) = some (decide (c = 19 ∧ 50 ≤ b ∧ b ≤ 57)) := by
  simp only [tableAt, inv_rows c hc, Option.some_bind, invRow_entries _ b hb]
  by_cases h : c = 19 <;> simp [h]


/-- One column entered with the flag clear, spelled out case by case. -/
theorem col_eval (buf : Nat → Fin 256) (n : Nat) (st : Regs) (he : st.e = 0) :
    DECU64COLPN buf n st =
      match tableAt lexDecU64t.inv n (charIndex (buf st.s)) with
      | none => none
      | some true => some { st with e := 1 }
      | some false =>
        match tableAt lexDecU64t.col n (charIndex (buf st.s)) with
        | none => none
        | some t =>
          if t > st.r then some { st with e := 1 }
          else some { ull := add64 st.ull t, s := st.s + 1, e := 0, r := sub64 st.r t } := by
  cases hi : tableAt lexDecU64t.inv n (charIndex (buf st.s)) with
  | none => simp [DECU64COLPN, he, hi]
  | some bad =>
    cases bad with
    | true => simp [DECU64COLPN, he, hi, b2u]
    | false =>
      cases hc : tableAt lexDecU64t.col n (charIndex (buf st.s)) with
      | none => simp [DECU64COLPN, he, hi, hc, b2u]
      | some t =>
        by_cases ht : t > st.r
        · simp [DECU64COLPN, he, hi, hc, b2u, ht]
        · simp [DECU64COLPN, he, hi, hc, b2u, ht]

/-- Columns that use the rows `m - 1` down to 0, entered with the flag
clear, do what the last `m` passes of the loop of the spec do. -/
theorem scan_eq_columnLoop (buf : Nat → Fin 256) (s0 d : Nat) :
    ∀ (m : Nat) (st : Regs), m ≤ d → st.e = 0 → st.s = s0 + (d - m) →
      scan buf m st = columnLoop buf s0 d m st := by
  intro m
  induction m with
  | zero => intro st _ _ _; rfl
  | succ m ih =>
    intro st hm he hs
    have hrow : d - 1 - (d - (m + 1)) = m := by omega
    have hone : ({ st with e := 1 } : Regs).e ≠ 0 := Nat.one_ne_zero
    rw [scan, columnLoop, hrow, ← hs, col_eval buf m st he]
    cases hi : tableAt lexDecU64t.inv m (charIndex (buf st.s)) with
    | none => rfl
    | some bad =>
      cases bad with
      | true =>
        show (some ({ st with e := 1 } : Regs)).bind (scan buf m) = some { st with e := 1 }
        rw [Option.some_bind, scan_skip buf m hone]
      | false =>
        cases hc : tableAt lexDecU64t.col m (charIndex (buf st.s)) with
        | none => rfl
        | some t =>
          by_cases ht : t > st.r
          · show (if t > st.r then some ({ st with e := 1 } : Regs)
                else some { ull := add64 st.ull t, s := st.s + 1, e := 0,
                            r := sub64 st.r t }).bind (scan buf m) =
              if t > st.r then some { st with e := 1 }
              else columnLoop buf s0 d m
                { ull := add64 st.ull t, s := st.s + 1, e := st.e, r := sub64 st.r t }
            rw [if_pos ht, if_pos ht, Option.some_bind, scan_skip buf m hone]
          · show (if t > st.r then some ({ st with e := 1 } : Regs)
                else some { ull := add64 st.ull t, s := st.s + 1, e := 0,
                            r := sub64 st.r t }).bind (scan buf m) =
              if t > st.r then some { st with e := 1 }
              else columnLoop buf s0 d m
                { ull := add64 st.ull t, s := st.s + 1, e := st.e, r := sub64 st.r t }
            rw [if_neg ht, if_neg ht, Option.some_bind, he]
            exact ih { ull := add64 st.ull t, s := st.s + 1, e := 0, r := sub64 st.r t }
              (by omega) rfl (show st.s + 1 = s0 + (d - m) by omega)

/-- The chain of a call with up to ten digits is the loop of the spec. -/
theorem chain_eq_columnLoop (buf : Nat → Fin 256) {d : Nat} (h1 : 1 ≤ d) (h10 : d ≤ 10)
    (st : Regs) (he : st.e = 0) :
    lexDecU64t.chain buf (d - 1) st = columnLoop buf st.s d d st := by
  rw [chain_eq_scan buf (show d - 1 < 10 by omega), show d - 1 + 1 = d by omega]
  exact scan_eq_columnLoop buf st.s d d st (Nat.le_refl d) he (by omega)

/-! ### The claims on the tables, the budget and the dispatch -/

/-- C24, evaluated where it fails. The entries of `inv` for bytes outside
`'0'` .. `'9'` are false in every row: `'a'` in row 0, NUL in row 19, `'/'`
and `':'` next to the digits, byte 255 in row 7. The entries for `'2'` and
`'9'` are true in row 19 and false in row 18, as the claim says. -/
theorem C24_inv_accepts_non_digits :
    tableAt lexDecU64t.inv 0 (Int.ofNat 97) = some false ∧
      tableAt lexDecU64t.inv 19 (Int.ofNat 0) = some false ∧
      tableAt lexDecU64t.inv 3 (Int.ofNat 47) = some false ∧
      tableAt lexDecU64t.inv 3 (Int.ofNat 58) = some false ∧
      tableAt lexDecU64t.inv 7 (Int.ofNat 255) = some false ∧
      tableAt lexDecU64t.inv 19 (Int.ofNat 50) = some true ∧
      tableAt lexDecU64t.inv 19 (Int.ofNat 57) = some true ∧
      tableAt lexDecU64t.inv 18 (Int.ofNat 50) = some false := by
  decide

/-- C25. For every column `c` below 20 the constant `p c` is exactly
`10 ^ c`, the product that defines the next constant stays below 2^64, and
for every digit `k` admitted in the column (any digit below column 19, 0 or
1 in column 19) the entry of `col` at `'0' + k` is exactly `k * 10 ^ c`,
which is below 2^64. -/
theorem C25_col_entries (c : Nat) (hc : c < 20) :
    lexDecU64t.p c = 10 ^ c ∧ 10 ^ c < U64 ∧
      (c + 1 < 20 → lexDecU64t.p c * lexDecU64t.ten < U64) ∧
      ∀ k, k < 10 → (c = 19 → k ≤ 1) →
        tableAt lexDecU64t.col c (Int.ofNat (48 + k)) = some (k * 10 ^ c) ∧
          k * 10 ^ c < U64 := by
  have hp : ∀ c < 20, lexDecU64t.p c = 10 ^ c ∧ 10 ^ c < U64 ∧
      (c + 1 < 20 → lexDecU64t.p c * lexDecU64t.ten < U64) := by decide
  refine ⟨(hp c hc).1, (hp c hc).2.1, (hp c hc).2.2, ?_⟩
  intro k hk htop
  obtain ⟨-, hcol, hlt⟩ := digit_entries c hc k hk
  have hvalid : ¬(c = 19 ∧ 2 ≤ k) := by
    rintro ⟨h19, h2⟩
    have := htop h19
    omega
  have hlt2 : k * 10 ^ c < 2 ^ 64 := hlt hvalid
  rw [hcol, Nat.mod_eq_of_lt hlt2]
  exact ⟨rfl, hlt2⟩

theorem C25_col_entries_witness :
    lexDecU64t.p 19 = 10 ^ 19 ∧ 10 ^ 19 < U64 ∧
      (19 + 1 < 20 → lexDecU64t.p 19 * lexDecU64t.ten < U64) ∧
      ∀ k, k < 10 → (19 = 19 → k ≤ 1) →
        tableAt lexDecU64t.col 19 (Int.ofNat (48 + k)) = some (k * 10 ^ 19) ∧
          k * 10 ^ 19 < U64 :=
  C25_col_entries 19 (by decide)

/-- C26, evaluated where it fails. On the first call the chain is entered
with the old content of the target as the accumulated result. With 5 in the
target, "2", digit count 1 and upper bound 3, the column leaves result 7 and
budget 1: their sum is 8, not the upper bound 3, and the result is above the
upper bound. With 2^64 - 1 in the target and "2" under the default upper
bound, the column leaves result 1: the addition to the result has wrapped
modulo 2^64. With 1 in the target and "18446744073709551615" under the
default upper bound, the twenty columns leave result 5554226023 and budget
2^64 - 1 - 5554226022, whose sum is 2^64. -/
theorem C26_budget_on_first_call :
    lexDecU64t.operator (lexDecU64t.DIGITS false) 5 (cstr "2") 0 0 1 3 0 =
        (lexDecU64t.chain (cstr "2") 0 { ull := 5, s := 0, e := 0, r := 3 }).map
          (lexDecU64t.finish lexDecU64t.fill 0 0) ∧
      lexDecU64t.chain (cstr "2") 0 { ull := 5, s := 0, e := 0, r := 3 } =
        some { ull := 7, s := 1, e := 0, r := 1 } ∧
      lexDecU64t.operator (lexDecU64t.DIGITS false) 18446744073709551615 (cstr "2") 0 0 1
          lexDecU64t.top 0 =
        (lexDecU64t.chain (cstr "2") 0
          { ull := 18446744073709551615, s := 0, e := 0, r := lexDecU64t.top }).map
          (lexDecU64t.finish lexDecU64t.fill 0 0) ∧
      lexDecU64t.chain (cstr "2") 0
          { ull := 18446744073709551615, s := 0, e := 0, r := lexDecU64t.top } =
        some { ull := 1, s := 1, e := 0, r := 18446744073709551613 } ∧
      lexDecU64t.operator (lexDecU64t.DIGITS false) 1 (cstr "18446744073709551615") 0 0 20
          lexDecU64t.top 0 =
        (lexDecU64t.chain (cstr "18446744073709551615") 19
          { ull := 1, s := 0, e := 0, r := lexDecU64t.top }).map
          (lexDecU64t.finish lexDecU64t.fill 0 0) ∧
      lexDecU64t.chain (cstr "18446744073709551615") 19
          { ull := 1, s := 0, e := 0, r := lexDecU64t.top } =
        some { ull := 5554226023, s := 20, e := 0, r := 18446744068155325593 } := by
  decide

/-- C27. If the columns that the chain runs on the bytes in positions 0 to
`k` of a `d`-digit request (the labels numbered `d - 1` down to `d - 1 - k`,
each reading the rows of its last digit) leave the flag set, the call gives
the same result for any two buffers that agree on those bytes, whatever the
later bytes are: the flag is set, 0 is returned and the cursor is where it
was. -/
theorem C27_scan_abort (filled : Bool) (ull : Nat) (buf1 buf2 : Nat → Fin 256)
    (s d r b k : Nat) (h1 : 1 ≤ d) (h20 : d ≤ 20) (hk : k < d)
    (hfail : ∃ st1,
      columnRun buf1 (d - 1) (k + 1)
          { ull := if filled then 0 else ull, s := s, e := 0, r := r } = some st1 ∧
        st1.e ≠ 0)
    (hagree : ∀ i, i ≤ k → buf1 (s + i) = buf2 (s + i)) :
    ∃ out, lexDecU64t.operator (lexDecU64t.DIGITS filled) ull buf1 s 0 d r b = some out ∧
      lexDecU64t.operator (lexDecU64t.DIGITS filled) ull buf2 s 0 d r b = some out ∧
      out.e ≠ 0 ∧ out.ull = 0 ∧ out.s = s := by
  obtain ⟨st1, hrun, hne⟩ := hfail
  have hrun2 : columnRun buf2 (d - 1) (k + 1)
      { ull := if filled then 0 else ull, s := s, e := 0, r := r } = some st1 := by
    rw [← columnRun_congr (d - 1) (k + 1)
      { ull := if filled then 0 else ull, s := s, e := 0, r := r }
      (fun i hi => hagree i (by omega))]
    exact hrun
  have hall : ∀ buf : Nat → Fin 256,
      columnRun buf (d - 1) (k + 1)
        { ull := if filled then 0 else ull, s := s, e := 0, r := r } = some st1 →
      columnRun buf (d - 1) d
        { ull := if filled then 0 else ull, s := s, e := 0, r := r } = some st1 := by
    intro buf hb
    have hadd := columnRun_add buf (d - 1) (k + 1) (d - (k + 1))
      { ull := if filled then 0 else ull, s := s, e := 0, r := r }
    rw [show k + 1 + (d - (k + 1)) = d by omega] at hadd
    rw [hadd, hb, Option.some_bind, columnRun_skip buf _ _ hne]
  rw [operator_run filled ull buf1 s d r b h1 h20, operator_run filled ull buf2 s d r b h1 h20,
    hall buf1 hrun, hall buf2 hrun2, Option.map_some', finish_flag_set _ _ _ hne]
  exact ⟨_, rfl, rfl, lor_ne_zero_left _ hne, rfl, rfl⟩

theorem C27_scan_abort_witness :
    ∃ out, lexDecU64t.operator (lexDecU64t.DIGITS true) 0 (cstr "350000000000") 0 0 12
        32 0 = some out ∧
      lexDecU64t.operator (lexDecU64t.DIGITS true) 0 (cstr "35") 0 0 12 32 0 = some out ∧
      out.e ≠ 0 ∧ out.ull = 0 ∧ out.s = 0 :=
  C27_scan_abort true 0 (cstr "350000000000") (cstr "35") 0 12 32 0 1
    (by decide) (by decide) (by decide)
    ⟨{ ull := 30, s := 1, e := 1, r := 2 }, by decide, by decide⟩ (by decide)

/-- C28, evaluated where it fails. The slot `DIGITS[11]` of the filled table
is the label `c10`, and the chain entered there handles the first byte with
table row 0, not row 10: on "12345678901" with the default upper bound it
gives 1 + 2345678901 = 2345678902, and so do the dispatch `run:` and the
call as a whole, while the loop of the spec, which handles byte `i` with
table row `d - 1 - i`, gives 12345678901. Cursor and flag are the same on
both sides. -/
theorem C28_chain_differs_from_column_loop :
    lexDecU64t.fill[11]? = some (Label.c 10) ∧
      lexDecU64t.chain (cstr "12345678901") 10
          { ull := 0, s := 0, e := 0, r := lexDecU64t.top } =
        some { ull := 2345678902, s := 11, e := 0, r := 18446744071363872713 } ∧
      columnLoop (cstr "12345678901") 0 11 11
          { ull := 0, s := 0, e := 0, r := lexDecU64t.top } =
        some { ull := 12345678901, s := 11, e := 0, r := 18446744061363872714 } ∧
      lexDecU64t.run lexDecU64t.fill (cstr "12345678901") 11 0 0
          { ull := 0, s := 0, e := 0, r := lexDecU64t.top } =
        some { ull := 2345678902, s := 11, e := 0, DIGITS := lexDecU64t.fill } ∧
      lexDecU64t.operator (lexDecU64t.DIGITS true) 0 (cstr "12345678901") 0 0 11
          lexDecU64t.top 0 =
        some { ull := 2345678902, s := 11, e := 0, DIGITS := lexDecU64t.fill } := by
  decide

/-- C29, evaluated where it fails. `char` being signed, the bytes 128 to 255
give the indices -128 to -1: for the byte 200 the index is -56, the reads of
`inv` and `col` fall before their rows, and a call whose first byte is 200 has
no defined result. -/
theorem C29_high_byte_index_is_negative :
    charIndex 128 = -128 ∧ charIndex 200 = -56 ∧ charIndex 255 = -1 ∧
      tableAt lexDecU64t.inv 0 (charIndex 200) = none ∧
      tableAt lexDecU64t.col 0 (charIndex 200) = none ∧
      lexDecU64t.operator (lexDecU64t.DIGITS true) 0 (fun _ => 200) 0 0 1 lexDecU64t.top 0 =
        none := by
  decide

end Lettvin

namespace nTenPin

open cPlayer

set_option maxRecDepth 100000

/-! ### Ten-pin: single balls -/

theorem operator_strike (st : cPlayer) (hr : st.round_ < 10) (hb : st.ball_ = 0) :
    st.operator 10 =
      ({ st with pins_ := st.store 10, round_ := st.round_ + 1 }, none) := by
  have h1 : ¬ st.round_ = 10 := by omega
  have h2 : ¬ st.round_ ≥ 10 := by omega
  simp [cPlayer.operator, hb, h1, h2]

theorem operator_first (st : cPlayer) (pins : Nat) (hr : st.round_ < 10) (hb : st.ball_ = 0)
    (hp : pins < 10) :
    st.operator pins = ({ st with pins_ := st.store pins, ball_ := 1 }, none) := by
  have h0 : ¬ pins > 10 := by omega
  have h1 : ¬ st.round_ = 10 := by omega
  have h2 : ¬ st.round_ ≥ 10 := by omega
  have h3 : ¬ pins = 10 := by omega
  simp [cPlayer.operator, hb, h0, h1, h2, h3]

theorem operator_second (st : cPlayer) (pins : Nat) (hr : st.round_ < 10) (hb : st.ball_ = 1)
    (hp : st.pins_ 0 st.round_ + pins ≤ 10) :
    st.operator pins =
      ({ st with pins_ := st.store pins, ball_ := 0, round_ := st.round_ + 1 }, none) := by
  have h0 : ¬ pins > 10 := by omega
  have h1 : ¬ st.round_ = 10 := by omega
  have h2 : ¬ st.round_ ≥ 10 := by omega
  have h3 : ¬ st.pins_ 0 st.round_ + pins > 10 := by omega
  have h4 : ¬ st.pins_ 0 st.round_ + pins > 20 := by omega
  simp [cPlayer.operator, hb, h0, h1, h2, h3, h4]

/-- A ball of more than 10 pins is refused in every state. -/
theorem operator_too_many_pins (st : cPlayer) (pins : Nat) (hp : 10 < pins) :
    st.operator pins = (st, some "1. too many pins for ball") := by
  simp [cPlayer.operator, hp]

/-- In a standard frame, a second ball that brings the frame above 10 pins is
refused. -/
theorem operator_frame_overfull (st : cPlayer) (pins : Nat) (hr : st.round_ < 10)
    (hb : st.ball_ ≠ 0) (hp : pins ≤ 10) (hsum : 10 < st.pins_ 0 st.round_ + pins) :
    st.operator pins = (st, some "2. too many pins for standard frame") := by
  have h0 : ¬ pins > 10 := by omega
  simp [cPlayer.operator, hb, h0, hr, hsum]

/-- An accepted ball has at most 10 pins. -/
theorem accepted_le_ten {st st1 : cPlayer} {pins : Nat} (h : st.operator pins = (st1, none)) :
    pins ≤ 10 := by
  by_contra hp
  rw [operator_too_many_pins st pins (by omega)] at h
  simp at h

/-- An accepted second ball of a standard frame keeps the frame within 10. -/
theorem accepted_second_le {st st1 : cPlayer} {pins : Nat} (hr : st.round_ < 10)
    (hb : st.ball_ ≠ 0) (h : st.operator pins = (st1, none)) :
    st.pins_ 0 st.round_ + pins ≤ 10 := by
  by_contra hp
  rw [operator_frame_overfull st pins hr hb (accepted_le_ten h) (by omega)] at h
  simp at h

/-- What an accepted ball does after the tenth frame: it is stored in the
bonus frame at the position `ball_`, which is below 2, and `ball_` moves on. -/
theorem accepted_bonus {st st1 : cPlayer} {pins : Nat} (hr : st.round_ = 10)
    (h : st.operator pins = (st1, none)) :
    st.ball_ < 2 ∧ st1 = { st with pins_ := st.store pins, ball_ := st.ball_ + 1 } := by
  unfold cPlayer.operator at h
  simp only [hr, ge_iff_le, le_refl, lt_irrefl, false_and, if_false, true_and, if_true] at h
  split_ifs at h <;> simp_all

/-! ### Ten-pin: ball sequences and frames -/

theorem ballAt_nil (j : Nat) : ballAt [] j = 0 := by
  simp [ballAt]

theorem ballAt_cons_zero (a : Nat) (l : List Nat) : ballAt (a :: l) 0 = a := by
  simp [ballAt]

theorem ballAt_cons_succ (a : Nat) (l : List Nat) (j : Nat) :
    ballAt (a :: l) (j + 1) = ballAt l j := by
  simp [ballAt]

theorem ballAt_of_le {l : List Nat} {j : Nat} (h : l.length ≤ j) : ballAt l j = 0 := by
  simp [ballAt, List.getElem?_eq_none h]

theorem frameStart_ge (bs : List Nat) (j : Nat) : j ≤ frameStart bs j := by
  induction j with
  | zero => exact Nat.le_refl 0
  | succ j ih =>
    rw [frameStart]
    split_ifs <;> omega

theorem frameStart_cons_strike (rest : List Nat) (j : Nat) :
    frameStart (10 :: rest) (j + 1) = 1 + frameStart rest j := by
  induction j with
  | zero => simp [frameStart, ballAt_cons_zero]
  | succ j ih =>
    rw [frameStart, ih, show 1 + frameStart rest j = frameStart rest j + 1 by omega,
      ballAt_cons_succ, frameStart]
    omega

theorem frameStart_cons_open (a b : Nat) (rest : List Nat) (ha : a ≠ 10) (j : Nat) :
    frameStart (a :: b :: rest) (j + 1) = 2 + frameStart rest j := by
  induction j with
  | zero => simp [frameStart, ballAt_cons_zero, ha]
  | succ j ih =>
    rw [frameStart, ih, show 2 + frameStart rest j = frameStart rest j + 1 + 1 by omega,
      ballAt_cons_succ, ballAt_cons_succ, frameStart]
    omega

theorem feed_cons {st st2 : cPlayer} {b : Nat} {bs : List Nat}
    (h : feed st (b :: bs) = (st2, none)) :
    ∃ st1, st.operator b = (st1, none) ∧ feed st1 bs = (st2, none) := by
  rw [feed] at h
  rcases hop : st.operator b with ⟨st1, _ | msg⟩
  · rw [hop] at h
    exact ⟨st1, rfl, h⟩
  · rw [hop] at h
    simp at h

/-- Balls accepted after the tenth frame: at most two, stored in order in
the bonus frame; the ten standard frames are left as they were. -/
theorem bonus_layout {bs : List Nat} {st st2 : cPlayer} (hr : st.round_ = 10)
    (hb : st.ball_ = 0) (hz : ∀ a, st.pins_ a 10 = 0) (h : feed st bs = (st2, none)) :
    (∀ a i, i < 10 → st2.pins_ a i = st.pins_ a i) ∧ st2.pins_ 0 10 = ballAt bs 0 ∧
      st2.pins_ 1 10 = ballAt bs 1 ∧ st2.round_ = 10 ∧ st2.ball_ = bs.length := by
  rcases bs with _ | ⟨x, _ | ⟨y, _ | ⟨z, r3⟩⟩⟩
  · simp only [feed, Prod.mk.injEq, and_true] at h
    subst h
    simp [ballAt_nil, hz, hr, hb]
  · obtain ⟨st1, h1, hf⟩ := feed_cons h
    obtain ⟨-, rfl⟩ := accepted_bonus hr h1
    simp only [feed, Prod.mk.injEq, and_true] at hf
    subst hf
    refine ⟨?_, ?_, ?_, hr, ?_⟩
    · intro a i hi
      simp [cPlayer.store, hr]
      intro _ h10
      omega
    · simp [cPlayer.store, hr, hb, ballAt_cons_zero]
    · simp [cPlayer.store, hr, hb, ballAt, hz]
    · simp [hb]
  · obtain ⟨st1, h1, hf⟩ := feed_cons h
    obtain ⟨-, rfl⟩ := accepted_bonus hr h1
    obtain ⟨st3, h3, hf3⟩ := feed_cons hf
    obtain ⟨-, rfl⟩ := @accepted_bonus { st with pins_ := st.store x, ball_ := st.ball_ + 1 } _ _
      hr h3
    simp only [feed, Prod.mk.injEq, and_true] at hf3
    subst hf3
    refine ⟨?_, ?_, ?_, hr, ?_⟩
    · intro a i hi
      simp [cPlayer.store, hr]
      have : ¬ i = 10 := by omega
      simp [this]
    · simp [cPlayer.store, hr, hb, ballAt_cons_zero]
    · simp [cPlayer.store, hr, hb, ballAt]
    · simp [hb]
  · obtain ⟨st1, h1, hf⟩ := feed_cons h
    obtain ⟨-, rfl⟩ := accepted_bonus hr h1
    obtain ⟨st3, h3, hf3⟩ := feed_cons hf
    obtain ⟨-, rfl⟩ := @accepted_bonus { st with pins_ := st.store x, ball_ := st.ball_ + 1 } _ _
      hr h3
    obtain ⟨st4, h4, -⟩ := feed_cons hf3
    obtain ⟨hlt, -⟩ := @accepted_bonus
      { st with pins_ := ({ st with pins_ := st.store x, ball_ := st.ball_ + 1 } :
          cPlayer).store y, ball_ := st.ball_ + 1 + 1 } _ _ hr h4
    simp only [hb] at hlt
    omega

/-- Where accepted balls end up. Starting at the beginning of frame `k`
(0-based, `k = 10` being the bonus frame) with nothing recorded from frame
`k` on, after any accepted sequence `bs`: earlier frames are untouched, frame
`k + j` holds the ball at which frame `j` of `bs` starts and, unless that
ball is a strike, the ball after it, and the bonus frame holds the two balls
from the start of the frame after the tenth. Balls not thrown read as 0. -/
theorem layout_from (n : Nat) :
    ∀ (bs : List Nat) (st st2 : cPlayer), bs.length ≤ n → st.ball_ = 0 → st.round_ ≤ 10 →
      (∀ a i, st.round_ ≤ i → st.pins_ a i = 0) → feed st bs = (st2, none) →
      (∀ a i, i < st.round_ → st2.pins_ a i = st.pins_ a i) ∧
        (∀ j, st.round_ + j ≤ 9 →
          st2.pins_ 0 (st.round_ + j) = ballAt bs (frameStart bs j) ∧
            st2.pins_ 1 (st.round_ + j) =
              if ballAt bs (frameStart bs j) = 10 then 0
              else ballAt bs (frameStart bs j + 1)) ∧
        st2.pins_ 0 10 = ballAt bs (frameStart bs (10 - st.round_)) ∧
        st2.pins_ 1 10 = ballAt bs (frameStart bs (10 - st.round_) + 1) := by
  induction n with
  | zero =>
    intro bs st st2 hlen hb hk hz hf
    have hnil : bs = [] := List.length_eq_zero.mp (Nat.le_zero.mp hlen)
    subst hnil
    simp only [feed, Prod.mk.injEq, and_true] at hf
    subst hf
    refine ⟨fun _ _ _ => rfl, ?_, ?_, ?_⟩
    · intro j hj
      simp [ballAt_nil, hz]
    · simp [ballAt_nil, hz, hk]
    · simp [ballAt_nil, hz, hk]
  | succ n ih =>
    intro bs st st2 hlen hb hk hz hf
    by_cases h10 : st.round_ = 10
    · obtain ⟨h1, h2, h3, -, -⟩ := bonus_layout h10 hb (fun a => hz a 10 (by omega)) hf
      refine ⟨fun a i hi => h1 a i (by omega), fun j hj => absurd hj (by omega), ?_, ?_⟩
      · simpa [h10, frameStart] using h2
      · simpa [h10, frameStart] using h3
    · have hk9 : st.round_ < 10 := by omega
      rcases bs with _ | ⟨a, rest⟩
      · simp only [feed, Prod.mk.injEq, and_true] at hf
        subst hf
        refine ⟨fun _ _ _ => rfl, ?_, ?_, ?_⟩
        · intro j hj
          simp [ballAt_nil, hz]
        · simp [ballAt_nil, hz, hk]
        · simp [ballAt_nil, hz, hk]
      · obtain ⟨st1, hop, hf1⟩ := feed_cons hf
        have ha10 := accepted_le_ten hop
        have hrest : rest.length ≤ n := by
          simp only [List.length_cons] at hlen; omega
        by_cases ha : a = 10
        · subst ha
          rw [operator_strike st hk9 hb, Prod.mk.injEq] at hop
          obtain ⟨rfl, -⟩ := hop
          obtain ⟨i1, i2, i3, i4⟩ := ih rest
            ({ st with pins_ := st.store 10, round_ := st.round_ + 1 } : cPlayer) st2 hrest hb
            (show st.round_ + 1 ≤ 10 by omega)
            (by
              intro a i hi
              have hi2 : st.round_ + 1 ≤ i := hi
              show st.store 10 a i = 0
              simp only [cPlayer.store]
              rw [if_neg (by omega)]
              exact hz a i (by omega)) hf1
          simp only at i1 i2 i3 i4
          refine ⟨?_, ?_, ?_, ?_⟩
          · intro a i hi
            rw [i1 a i (by omega)]
            simp only [cPlayer.store]
            rw [if_neg (by omega)]
          · intro j hj
            rcases j with _ | j
            · have e0 := i1 0 st.round_ (by omega)
              have e1 := i1 1 st.round_ (by omega)
              simp only [cPlayer.store, hb, and_self, if_true, true_and] at e0
              simp only [cPlayer.store, hb, Nat.succ_ne_zero, false_and, if_false] at e1
              simp only [Nat.add_zero, frameStart, ballAt_cons_zero, if_true]
              exact ⟨e0, by rw [e1]; exact hz 1 _ (Nat.le_refl _)⟩
            · obtain ⟨f0, f1⟩ := i2 j (by omega)
              rw [frameStart_cons_strike, show 1 + frameStart rest j = frameStart rest j + 1 by omega,
                ballAt_cons_succ, ballAt_cons_succ,
                show st.round_ + (j + 1) = st.round_ + 1 + j by omega]
              exact ⟨f0, f1⟩
          · rw [i3, show 10 - st.round_ = (10 - (st.round_ + 1)) + 1 by omega,
              frameStart_cons_strike, show ∀ x, 1 + x = x + 1 from fun x => Nat.add_comm 1 x,
              ballAt_cons_succ]
          · rw [i4, show 10 - st.round_ = (10 - (st.round_ + 1)) + 1 by omega,
              frameStart_cons_strike, show ∀ x, 1 + x = x + 1 from fun x => Nat.add_comm 1 x,
              ballAt_cons_succ]
        · have ha9 : a < 10 := by omega
          rw [operator_first st a hk9 hb ha9, Prod.mk.injEq] at hop
          obtain ⟨rfl, -⟩ := hop
          rcases rest with _ | ⟨b, rest2⟩
          · simp only [feed, Prod.mk.injEq, and_true] at hf1
            subst hf1
            refine ⟨?_, ?_, ?_, ?_⟩
            · intro x i hi
              simp only [cPlayer.store]
              rw [if_neg (by omega)]
            · intro j hj
              rcases j with _ | j
              · simp [cPlayer.store, hb, frameStart, ballAt_cons_zero, ha, ballAt_cons_succ,
                  ballAt_nil, hz]
              · have hge := frameStart_ge [a] (j + 1)
                have hlen1 : [a].length = 1 := rfl
                simp only [cPlayer.store]
                rw [if_neg (by omega), if_neg (by omega), hz 0 _ (by omega), hz 1 _ (by omega),
                  ballAt_of_le (l := [a]) (j := frameStart [a] (j + 1)) (by omega),
                  ballAt_of_le (l := [a]) (j := frameStart [a] (j + 1) + 1) (by omega)]
                simp
            · have hge := frameStart_ge [a] (10 - st.round_)
              have hlen1 : [a].length = 1 := rfl
              simp only [cPlayer.store]
              rw [if_neg (by omega), hz 0 _ (by omega),
                ballAt_of_le (l := [a]) (j := frameStart [a] (10 - st.round_)) (by omega)]
            · have hge := frameStart_ge [a] (10 - st.round_)
              have hlen1 : [a].length = 1 := rfl
              simp only [cPlayer.store]
              rw [if_neg (by omega), hz 1 _ (by omega),
                ballAt_of_le (l := [a]) (j := frameStart [a] (10 - st.round_) + 1) (by omega)]
          · obtain ⟨st3, hop2, hf2⟩ := feed_cons hf1
            have hsum := @accepted_second_le { st with pins_ := st.store a, ball_ := 1 } _ _
              hk9 (by simp) hop2
            simp only [cPlayer.store, hb, and_self, if_true] at hsum
            rw [operator_second ({ st with pins_ := st.store a, ball_ := 1 } : cPlayer) b hk9 rfl
              (by simpa [cPlayer.store, hb] using hsum), Prod.mk.injEq] at hop2
            obtain ⟨rfl, -⟩ := hop2
            have hrest2 : rest2.length ≤ n := by
              simp only [List.length_cons] at hrest; omega
            obtain ⟨i1, i2, i3, i4⟩ := ih rest2
              ({ st with pins_ := ({ st with pins_ := st.store a, ball_ := 1 } : cPlayer).store b,
                         ball_ := 0, round_ := st.round_ + 1 } : cPlayer) st2 hrest2 rfl
              (show st.round_ + 1 ≤ 10 by omega)
              (by
                intro x i hi
                have hi2 : st.round_ + 1 ≤ i := hi
                show ({ st with pins_ := st.store a, ball_ := 1 } : cPlayer).store b x i = 0
                simp only [cPlayer.store]
                rw [if_neg (by omega), if_neg (by omega)]
                exact hz x i (by omega)) hf2
            simp only at i1 i2 i3 i4
            refine ⟨?_, ?_, ?_, ?_⟩
            · intro x i hi
              rw [i1 x i (by omega)]
              simp only [cPlayer.store]
              rw [if_neg (by omega), if_neg (by omega)]
            · intro j hj
              rcases j with _ | j
              · have e0 := i1 0 st.round_ (by omega)
                have e1 := i1 1 st.round_ (by omega)
                simp only [cPlayer.store, hb, and_self, if_true, true_and, Nat.zero_ne_one,
                  false_and, if_false] at e0
                simp only [cPlayer.store, and_self, if_true] at e1
                simp only [Nat.add_zero, frameStart, ballAt_cons_zero, ha, if_false,
                  Nat.zero_add, ballAt_cons_succ]
                exact ⟨e0, e1⟩
              · obtain ⟨f0, f1⟩ := i2 j (by omega)
                rw [frameStart_cons_open a b rest2 ha,
                  show 2 + frameStart rest2 j = frameStart rest2 j + 1 + 1 by omega,
                  ballAt_cons_succ, ballAt_cons_succ, ballAt_cons_succ, ballAt_cons_succ,
                  show st.round_ + (j + 1) = st.round_ + 1 + j by omega]
                exact ⟨f0, f1⟩
            · rw [i3, show 10 - st.round_ = (10 - (st.round_ + 1)) + 1 by omega,
                frameStart_cons_open a b rest2 ha,
                show ∀ x, 2 + x = x + 1 + 1 from fun x => by omega,
                ballAt_cons_succ, ballAt_cons_succ]
            · rw [i4, show 10 - st.round_ = (10 - (st.round_ + 1)) + 1 by omega,
                frameStart_cons_open a b rest2 ha,
                show ∀ x, 2 + x = x + 1 + 1 from fun x => by omega,
                ballAt_cons_succ, ballAt_cons_succ]

/-! ### Ten-pin: the score -/

/-- After `n` passes the loop has added up `current` of the frames so far,
and has written each intermediate sum. -/
theorem summation_eq (st : cPlayer) (n : Nat) :
    (summation st n).1 = ∑ i in Finset.range n, current st i ∧
      (summation st n).2 =
        (List.range n).map (fun m => ∑ i in Finset.range (m + 1), current st i) := by
  induction n with
  | zero => simp [summation]
  | succ n ih =>
    obtain ⟨h1, h2⟩ := ih
    simp only [summation, h1, h2, Finset.sum_range_succ, List.range_succ, List.map_append,
      List.map_cons, List.map_nil, and_self]

/-- With ten frames done, `display` writes the running sums of `current`
over the frames and their total. -/
theorem display_totals (st : cPlayer) (h : st.round_ = 10) :
    (display st).2 =
      Shown.totals ((List.range 10).map (fun m => ∑ i in Finset.range (m + 1), current st i))
        (∑ i in Finset.range 10, current st i) := by
  have hlt : ¬ st.round_ < 10 := by omega
  simp only [display, hlt, if_false, (summation_eq st 10).1, (summation_eq st 10).2]

/-- The arrays after a sequence accepted from the start of a game. -/
theorem layout {bs : List Nat} {st : cPlayer} (h : feed ctor bs = (st, none)) :
    (∀ j, j ≤ 9 →
        st.pins_ 0 j = ballAt bs (frameStart bs j) ∧
          st.pins_ 1 j =
            if ballAt bs (frameStart bs j) = 10 then 0 else ballAt bs (frameStart bs j + 1)) ∧
      st.pins_ 0 10 = ballAt bs (frameStart bs 10) ∧
      st.pins_ 1 10 = ballAt bs (frameStart bs 10 + 1) := by
  obtain ⟨-, h2, h3, h4⟩ :=
    layout_from bs.length bs ctor st (Nat.le_refl _) rfl (Nat.zero_le 10) (fun _ _ _ => rfl) h
  refine ⟨fun j hj => ?_, h3, h4⟩
  have := h2 j (by simpa [ctor] using hj)
  simpa [ctor] using this

/-- The contribution of a strike frame. -/
theorem current_strike {bs : List Nat} {st : cPlayer} (h : feed ctor bs = (st, none))
    {i : Nat} (hi : i < 10) (hs : ballAt bs (frameStart bs i) = 10) :
    current st i = 10 + ballAt bs (frameStart bs i + 1) + ballAt bs (frameStart bs i + 2) := by
  obtain ⟨hl, h0, h1⟩ := layout h
  obtain ⟨p0, p1⟩ := hl i (by omega)
  rw [hs] at p0
  rw [hs, if_pos rfl] at p1
  have hfs : frameStart bs (i + 1) = frameStart bs i + 1 := by
    rw [frameStart, if_pos hs]
  by_cases h9 : i = 9
  · subst h9
    have h1b : st.pins_ 1 10 = ballAt bs (frameStart bs 9 + 2) := by rw [h1, hfs]
    rw [hfs] at h0
    simp only [current, if_true, p0, p1, h0, h1b]
    omega
  · obtain ⟨q0, q1⟩ := hl (i + 1) (by omega)
    rw [hfs] at q0 q1
    have q1b : st.pins_ 1 (i + 1) =
        if ballAt bs (frameStart bs i + 1) = 10 then 0
        else ballAt bs (frameStart bs i + 2) := q1
    by_cases hn : ballAt bs (frameStart bs i + 1) = 10
    · have hfs2 : frameStart bs (i + 2) = frameStart bs i + 2 := by
        rw [frameStart, hfs, if_pos hn]
      have r0 : st.pins_ 0 (i + 2) = ballAt bs (frameStart bs i + 2) := by
        by_cases h8 : i = 8
        · subst h8
          rw [h0, hfs2]
        · rw [(hl (i + 2) (by omega)).1, hfs2]
      simp only [current, h9, if_false, p0, p1, q0, hn, if_true, r0]
      omega
    · rw [if_neg hn] at q1b
      simp only [current, h9, if_false, p0, p1, q0, hn, if_true, q1b]
      omega

/-- The contribution of a spare frame. -/
theorem current_spare {bs : List Nat} {st : cPlayer} (h : feed ctor bs = (st, none))
    {i : Nat} (hi : i < 10) (hn : ballAt bs (frameStart bs i) ≠ 10)
    (hs : ballAt bs (frameStart bs i) + ballAt bs (frameStart bs i + 1) = 10) :
    current st i = 10 + ballAt bs (frameStart bs i + 2) := by
  obtain ⟨hl, h0, -⟩ := layout h
  obtain ⟨p0, p1⟩ := hl i (by omega)
  rw [if_neg hn] at p1
  have hfs : frameStart bs (i + 1) = frameStart bs i + 2 := by
    rw [frameStart, if_neg hn]
  have hsum : st.pins_ 1 i + st.pins_ 0 i = 10 := by rw [p0, p1]; omega
  have hp0 : ¬ st.pins_ 0 i = 10 := by rw [p0]; exact hn
  by_cases h9 : i = 9
  · subst h9
    rw [hfs] at h0
    simp only [current, if_true, hp0, if_false, hsum, h0]
  · have q0 := (hl (i + 1) (by omega)).1
    rw [hfs] at q0
    simp only [current, h9, if_false, hp0, hsum, if_true, q0]

/-- The contribution of a frame that is neither a strike nor a spare. -/
theorem current_open {bs : List Nat} {st : cPlayer} (h : feed ctor bs = (st, none))
    {i : Nat} (hi : i < 10) (hn : ballAt bs (frameStart bs i) ≠ 10)
    (hs : ballAt bs (frameStart bs i) + ballAt bs (frameStart bs i + 1) ≠ 10) :
    current st i = ballAt bs (frameStart bs i) + ballAt bs (frameStart bs i + 1) := by
  obtain ⟨hl, -, -⟩ := layout h
  obtain ⟨p0, p1⟩ := hl i (by omega)
  rw [if_neg hn] at p1
  have hsum : ¬ ballAt bs (frameStart bs i + 1) + ballAt bs (frameStart bs i) = 10 := by
    omega
  by_cases h9 : i = 9
  · subst h9
    simp only [current, if_true, p0, p1, hn, hsum, if_false]
    omega
  · simp only [current, h9, if_false, p0, p1, hn, hsum]
    omega

/-! ### Ten-pin: games without strikes or spares -/

/-- Frames whose two balls stay below 10 are all accepted, one frame per two
balls. -/
theorem open_accept (m : Nat) :
    ∀ (bs : List Nat) (st : cPlayer), bs.length = 2 * m → st.ball_ = 0 →
      st.round_ + m ≤ 10 → (∀ i, i < m → ballAt bs (2 * i) + ballAt bs (2 * i + 1) < 10) →
      ∃ st2, feed st bs = (st2, none) ∧ st2.round_ = st.round_ + m := by
  induction m with
  | zero =>
    intro bs st hlen _ _ _
    have hnil : bs = [] := List.length_eq_zero.mp (by simpa using hlen)
    subst hnil
    exact ⟨st, rfl, rfl⟩
  | succ m ih =>
    intro bs st hlen hb hr hopen
    rcases bs with _ | ⟨a, _ | ⟨b, rest⟩⟩
    · simp at hlen
    · simp only [List.length_cons, List.length_nil] at hlen; omega
    · have h0 := hopen 0 (by omega)
      simp only [Nat.mul_zero, Nat.zero_add, ballAt_cons_zero, ballAt_cons_succ] at h0
      have hr9 : st.round_ < 10 := by omega
      have hsum : ({ st with pins_ := st.store a, ball_ := 1 } : cPlayer).pins_ 0
          ({ st with pins_ := st.store a, ball_ := 1 } : cPlayer).round_ + b ≤ 10 := by
        simp only [cPlayer.store, hb, and_self, if_true]
        omega
      obtain ⟨st2, hf, hr2⟩ := ih rest
        ({ st with pins_ := ({ st with pins_ := st.store a, ball_ := 1 } : cPlayer).store b,
                   ball_ := 0, round_ := st.round_ + 1 } : cPlayer)
        (by simp only [List.length_cons] at hlen; omega) rfl
        (show st.round_ + 1 + m ≤ 10 by omega)
        (by
          intro i hi
          have := hopen (i + 1) (by omega)
          rw [show 2 * (i + 1) = 2 * i + 1 + 1 by omega,
            show 2 * i + 1 + 1 + 1 = (2 * i + 1) + 1 + 1 by omega] at this
          simpa only [ballAt_cons_succ] using this)
      refine ⟨st2, ?_, by rw [hr2]; show st.round_ + 1 + m = st.round_ + (m + 1); omega⟩
      rw [feed, operator_first st a hr9 hb (by omega)]
      simp only
      rw [feed, operator_second ({ st with pins_ := st.store a, ball_ := 1 } : cPlayer) b hr9 rfl
        hsum]
      exact hf

theorem frameStart_open (bs : List Nat) (m : Nat)
    (hopen : ∀ i, i < m → ballAt bs (2 * i) + ballAt bs (2 * i + 1) < 10) :
    ∀ i, i ≤ m → frameStart bs i = 2 * i := by
  intro i
  induction i with
  | zero => intro _; rfl
  | succ i ih =>
    intro hi
    have h := hopen i (by omega)
    rw [frameStart, ih (by omega), if_neg (by omega)]
    omega

theorem sum_pairs (m : Nat) :
    ∀ bs : List Nat, bs.length = 2 * m →
      ∑ i in Finset.range m, (ballAt bs (2 * i) + ballAt bs (2 * i + 1)) = bs.sum := by
  induction m with
  | zero =>
    intro bs hlen
    have hnil : bs = [] := List.length_eq_zero.mp (by simpa using hlen)
    subst hnil
    simp
  | succ m ih =>
    intro bs hlen
    rcases bs with _ | ⟨a, _ | ⟨b, rest⟩⟩
    · simp at hlen
    · simp only [List.length_cons, List.length_nil] at hlen; omega
    · rw [Finset.sum_range_succ']
      have hrest := ih rest (by simp only [List.length_cons] at hlen; omega)
      have hshift : ∀ i, ballAt (a :: b :: rest) (2 * (i + 1)) +
          ballAt (a :: b :: rest) (2 * (i + 1) + 1) =
          ballAt rest (2 * i) + ballAt rest (2 * i + 1) := by
        intro i
        rw [show 2 * (i + 1) + 1 = (2 * i + 1) + 1 + 1 by omega,
          show 2 * (i + 1) = 2 * i + 1 + 1 by omega]
        simp only [ballAt_cons_succ]
      rw [Finset.sum_congr rfl (fun i _ => hshift i), hrest]
      simp only [Nat.mul_zero, Nat.zero_add, ballAt_cons_zero, ballAt_cons_succ, List.sum_cons]
      omega

/-! ### Ten-pin: the claims -/

/-- C15. Twelve strikes in a row are all accepted, and `display` then writes
the running totals 30, 60, ..., 300 and the final total 300. -/
theorem C15_perfect_game :
    (feed ctor [10, 10, 10, 10, 10, 10, 10, 10, 10, 10, 10, 10]).2 = none ∧
      (display (feed ctor [10, 10, 10, 10, 10, 10, 10, 10, 10, 10, 10, 10]).1).2 =
        Shown.totals [30, 60, 90, 120, 150, 180, 210, 240, 270, 300] 300 := by
  decide

/-- C16. Any twenty balls whose two balls of each frame add up to less than
10 (so that every ball is below 10 and no frame is a strike or a spare) are
all accepted, and the total `display` writes is the sum of the twenty
pinfalls. -/
theorem C16_open_game (bs : List Nat) (hlen : bs.length = 20)
    (hopen : ∀ i, i < 10 → ballAt bs (2 * i) + ballAt bs (2 * i + 1) < 10) :
    ∃ st, feed ctor bs = (st, none) ∧
      (display st).2 =
        Shown.totals
          ((List.range 10).map
            (fun m => ∑ j in Finset.range (m + 1), (ballAt bs (2 * j) + ballAt bs (2 * j + 1))))
          bs.sum := by
  obtain ⟨st, hf, hr⟩ := open_accept 10 bs ctor hlen rfl (by simp [ctor]) hopen
  have hr10 : st.round_ = 10 := by simpa [ctor] using hr
  have hcur : ∀ i, i < 10 → current st i = ballAt bs (2 * i) + ballAt bs (2 * i + 1) := by
    intro i hi10
    have hfs := frameStart_open bs 10 hopen i (by omega)
    have h := hopen i hi10
    have hc := current_open hf hi10 (by rw [hfs]; omega) (by rw [hfs]; omega)
    rw [hc, hfs]
  refine ⟨st, hf, ?_⟩
  rw [display_totals st hr10, ← sum_pairs 10 bs hlen]
  congr 1
  · apply List.map_congr_left
    intro m hm
    have hm10 : m < 10 := List.mem_range.mp hm
    apply Finset.sum_congr rfl
    intro i hi
    exact hcur i (by have := Finset.mem_range.mp hi; omega)
  · apply Finset.sum_congr rfl
    intro i hi
    exact hcur i (Finset.mem_range.mp hi)

theorem C16_open_game_witness :
    ∃ st,
      feed ctor [0, 0, 0, 0, 0, 0, 0, 0, 0, 0, 0, 0, 0, 0, 0, 0, 0, 0, 0, 0] = (st, none) ∧
        (display st).2 =
          Shown.totals
            ((List.range 10).map
              (fun m => ∑ j in Finset.range (m + 1),
                (ballAt [0, 0, 0, 0, 0, 0, 0, 0, 0, 0, 0, 0, 0, 0, 0, 0, 0, 0, 0, 0] (2 * j) +
                  ballAt [0, 0, 0, 0, 0, 0, 0, 0, 0, 0, 0, 0, 0, 0, 0, 0, 0, 0, 0, 0]
                    (2 * j + 1))))
            [0, 0, 0, 0, 0, 0, 0, 0, 0, 0, 0, 0, 0, 0, 0, 0, 0, 0, 0, 0].sum :=
  C16_open_game [0, 0, 0, 0, 0, 0, 0, 0, 0, 0, 0, 0, 0, 0, 0, 0, 0, 0, 0, 0] (by decide)
    (by decide)

/-- C17. In every game whose balls were all accepted and whose ten frames
are done, `display` writes the running sums and the total of the frame values
`current`, and the value of a frame that opens with a strike is 10 plus the
two balls thrown right after the strike, whichever frames they fall in (a
ball not thrown counts 0). -/
theorem C17_strike_bonus (bs : List Nat) (st : cPlayer) (hacc : feed ctor bs = (st, none))
    (hdone : st.round_ = 10) (i : Nat) (hi : i < 10)
    (hstrike : ballAt bs (frameStart bs i) = 10) :
    current st i = 10 + ballAt bs (frameStart bs i + 1) + ballAt bs (frameStart bs i + 2) ∧
      (display st).2 =
        Shown.totals
          ((List.range 10).map (fun m => ∑ j in Finset.range (m + 1), current st j))
          (∑ j in Finset.range 10, current st j) :=
  ⟨current_strike hacc hi hstrike, display_totals st hdone⟩

theorem C17_strike_bonus_witness :
    (current (feed ctor [10, 3, 6, 0, 0, 0, 0, 0, 0, 0, 0, 0, 0, 0, 0, 0, 0, 0, 0]).1 0 =
        10 + ballAt [10, 3, 6, 0, 0, 0, 0, 0, 0, 0, 0, 0, 0, 0, 0, 0, 0, 0, 0]
              (frameStart [10, 3, 6, 0, 0, 0, 0, 0, 0, 0, 0, 0, 0, 0, 0, 0, 0, 0, 0] 0 + 1) +
          ballAt [10, 3, 6, 0, 0, 0, 0, 0, 0, 0, 0, 0, 0, 0, 0, 0, 0, 0, 0]
            (frameStart [10, 3, 6, 0, 0, 0, 0, 0, 0, 0, 0, 0, 0, 0, 0, 0, 0, 0, 0] 0 + 2) ∧
      (display (feed ctor [10, 3, 6, 0, 0, 0, 0, 0, 0, 0, 0, 0, 0, 0, 0, 0, 0, 0, 0]).1).2 =
        Shown.totals
          ((List.range 10).map (fun m => ∑ j in Finset.range (m + 1),
            current (feed ctor [10, 3, 6, 0, 0, 0, 0, 0, 0, 0, 0, 0, 0, 0, 0, 0, 0, 0, 0]).1 j))
          (∑ j in Finset.range 10,
            current (feed ctor [10, 3, 6, 0, 0, 0, 0, 0, 0, 0, 0, 0, 0, 0, 0, 0, 0, 0, 0]).1 j)) ∧
      (display (feed ctor [10, 3, 6, 0, 0, 0, 0, 0, 0, 0, 0, 0, 0, 0, 0, 0, 0, 0, 0]).1).2 =
        Shown.totals [19, 28, 28, 28, 28, 28, 28, 28, 28, 28] 28 ∧
      (display (feed ctor [10, 10, 9, 0, 0, 0, 0, 0, 0, 0, 0, 0, 0, 0, 0, 0, 0, 0]).1).2 =
        Shown.totals [29, 48, 57, 57, 57, 57, 57, 57, 57, 57] 57 ∧
      (display (feed ctor [10, 10, 10, 0, 9, 0, 0, 0, 0, 0, 0, 0, 0, 0, 0, 0, 0]).1).2 =
        Shown.totals [30, 50, 69, 78, 78, 78, 78, 78, 78, 78] 78 :=
  ⟨C17_strike_bonus [10, 3, 6, 0, 0, 0, 0, 0, 0, 0, 0, 0, 0, 0, 0, 0, 0, 0, 0] _ rfl rfl 0
      (by decide) (by decide),
    by decide, by decide, by decide⟩

/-- C18. In every game whose balls were all accepted and whose ten frames
are done, `display` writes the running sums and the total of the frame values
`current`, and the value of a frame whose two balls add up to 10 without the
first being 10 is 10 plus the one ball thrown right after the frame (a ball
not thrown counts 0). -/
theorem C18_spare_bonus (bs : List Nat) (st : cPlayer) (hacc : feed ctor bs = (st, none))
    (hdone : st.round_ = 10) (i : Nat) (hi : i < 10)
    (hfirst : ballAt bs (frameStart bs i) ≠ 10)
    (hspare : ballAt bs (frameStart bs i) + ballAt bs (frameStart bs i + 1) = 10) :
    current st i = 10 + ballAt bs (frameStart bs i + 2) ∧
      (display st).2 =
        Shown.totals
          ((List.range 10).map (fun m => ∑ j in Finset.range (m + 1), current st j))
          (∑ j in Finset.range 10, current st j) :=
  ⟨current_spare hacc hi hfirst hspare, display_totals st hdone⟩

theorem C18_spare_bonus_witness :
    (current (feed ctor [10, 10, 10, 10, 10, 10, 10, 10, 10, 7, 3, 10]).1 9 =
        10 + ballAt [10, 10, 10, 10, 10, 10, 10, 10, 10, 7, 3, 10]
          (frameStart [10, 10, 10, 10, 10, 10, 10, 10, 10, 7, 3, 10] 9 + 2) ∧
      (display (feed ctor [10, 10, 10, 10, 10, 10, 10, 10, 10, 7, 3, 10]).1).2 =
        Shown.totals
          ((List.range 10).map (fun m => ∑ j in Finset.range (m + 1),
            current (feed ctor [10, 10, 10, 10, 10, 10, 10, 10, 10, 7, 3, 10]).1 j))
          (∑ j in Finset.range 10,
            current (feed ctor [10, 10, 10, 10, 10, 10, 10, 10, 10, 7, 3, 10]).1 j)) ∧
      (display (feed ctor [10, 10, 10, 10, 10, 10, 10, 10, 10, 7, 3, 10]).1).2 =
        Shown.totals [30, 60, 90, 120, 150, 180, 210, 237, 257, 277] 277 ∧
      (display (feed ctor [7, 3, 4, 2, 0, 0, 0, 0, 0, 0, 0, 0, 0, 0, 0, 0, 0, 0, 0, 0]).1).2 =
        Shown.totals [14, 20, 20, 20, 20, 20, 20, 20, 20, 20] 20 :=
  ⟨C18_spare_bonus [10, 10, 10, 10, 10, 10, 10, 10, 10, 7, 3, 10] _ rfl rfl 9
      (by decide) (by decide) (by decide),
    by decide, by decide⟩

/-- C19. In every state of the player, a ball of more than 10 pins makes
`operator()` throw "1. too many pins for ball", and the state (round, ball
index, recorded pinfalls) is left as it was. -/
theorem C19_too_many_pins_for_ball (st : cPlayer) (pins : Nat) (hp : 10 < pins) :
    st.operator pins = (st, some "1. too many pins for ball") :=
  operator_too_many_pins st pins hp

theorem C19_too_many_pins_for_ball_witness :
    (feed ctor [10, 10, 10, 10, 10, 10, 10, 10, 10, 10, 10]).1.operator 11 =
      ((feed ctor [10, 10, 10, 10, 10, 10, 10, 10, 10, 10, 10]).1,
        some "1. too many pins for ball") :=
  C19_too_many_pins_for_ball (feed ctor [10, 10, 10, 10, 10, 10, 10, 10, 10, 10, 10]).1 11
    (by decide)

/-- C20. In any of the ten standard frames, a second ball of at most 10 pins
whose sum with the first ball of the frame is above 10 makes `operator()`
throw "2. too many pins for standard frame", and the state is left as it
was. -/
theorem C20_too_many_pins_for_frame (st : cPlayer) (pins : Nat) (hr : st.round_ < 10)
    (hb : st.ball_ = 1) (hp : pins ≤ 10) (hsum : 10 < st.pins_ 0 st.round_ + pins) :
    st.operator pins = (st, some "2. too many pins for standard frame") :=
  operator_frame_overfull st pins hr (by omega) hp hsum

theorem C20_too_many_pins_for_frame_witness :
    (feed ctor [7]).1.operator 4 =
      ((feed ctor [7]).1, some "2. too many pins for standard frame") :=
  C20_too_many_pins_for_frame (feed ctor [7]).1 4 (by decide) (by decide) (by decide)
    (by decide)

/-! ### Ten-pin: after the tenth frame, and before it -/

/-- Every ball of an accepted sequence has at most 10 pins. -/
theorem feed_balls_le {bs : List Nat} :
    ∀ {st st2 : cPlayer}, feed st bs = (st2, none) → ∀ j, ballAt bs j ≤ 10 := by
  induction bs with
  | nil =>
    intro st st2 _ j
    rw [ballAt_nil]
    omega
  | cons b rest ih =>
    intro st st2 h j
    obtain ⟨st1, hop, hf⟩ := feed_cons h
    rcases j with _ | j
    · rw [ballAt_cons_zero]
      exact accepted_le_ten hop
    · rw [ballAt_cons_succ]
      exact ih hf j

/-- Once ten frames are done, accepted balls leave `round_` at 10. -/
theorem bonus_round {bs : List Nat} :
    ∀ {st st2 : cPlayer}, st.round_ = 10 → feed st bs = (st2, none) → st2.round_ = 10 := by
  induction bs with
  | nil =>
    intro st st2 hr h
    simp only [feed, Prod.mk.injEq, and_true] at h
    subst h
    exact hr
  | cons b rest ih =>
    intro st st2 hr h
    obtain ⟨st1, hop, hf⟩ := feed_cons h
    obtain ⟨-, rfl⟩ := accepted_bonus hr hop
    exact @ih { st with pins_ := st.store b, ball_ := st.ball_ + 1 } st2 hr hf

theorem frameStart_add_ge (bs : List Nat) (i j : Nat) :
    frameStart bs i + j ≤ frameStart bs (i + j) := by
  induction j with
  | zero => exact Nat.le_refl _
  | succ j ih =>
    rw [show i + (j + 1) = (i + j) + 1 by omega, frameStart]
    split_ifs <;> omega

/-- The counter `round_` reaches 10 exactly when the accepted balls fill ten
frames: starting at the beginning of frame `round_`, it stays below 10 if and
only if the sequence ends before the start of the frame after the tenth. -/
theorem rounds_from (n : Nat) :
    ∀ (bs : List Nat) (st st2 : cPlayer), bs.length ≤ n → st.ball_ = 0 → st.round_ ≤ 10 →
      feed st bs = (st2, none) →
      (st2.round_ < 10 ↔ bs.length < frameStart bs (10 - st.round_)) := by
  induction n with
  | zero =>
    intro bs st st2 hlen hb hk hf
    have hnil : bs = [] := List.length_eq_zero.mp (Nat.le_zero.mp hlen)
    subst hnil
    simp only [feed, Prod.mk.injEq, and_true] at hf
    subst hf
    by_cases h10 : st.round_ = 10
    · simp [h10, frameStart]
    · have hge := frameStart_ge [] (10 - st.round_)
      simp only [List.length_nil]
      omega
  | succ n ih =>
    intro bs st st2 hlen hb hk hf
    by_cases h10 : st.round_ = 10
    · have h2 := bonus_round h10 hf
      simp only [h10, h2, Nat.sub_self, frameStart]
      omega
    · have hk9 : st.round_ < 10 := by omega
      rcases bs with _ | ⟨a, rest⟩
      · simp only [feed, Prod.mk.injEq, and_true] at hf
        subst hf
        have hge := frameStart_ge [] (10 - st.round_)
        simp only [List.length_nil]
        omega
      · obtain ⟨st1, hop, hf1⟩ := feed_cons hf
        have ha10 := accepted_le_ten hop
        have hrest : rest.length ≤ n := by
          simp only [List.length_cons] at hlen; omega
        have hsplit : 10 - st.round_ = (10 - (st.round_ + 1)) + 1 := by omega
        by_cases ha : a = 10
        · subst ha
          rw [operator_strike st hk9 hb, Prod.mk.injEq] at hop
          obtain ⟨rfl, -⟩ := hop
          have h := ih rest ({ st with pins_ := st.store 10, round_ := st.round_ + 1 } : cPlayer)
            st2 hrest hb (show st.round_ + 1 ≤ 10 by omega) hf1
          rw [h, hsplit, frameStart_cons_strike]
          simp only [List.length_cons]
          omega
        · have ha9 : a < 10 := by omega
          rw [operator_first st a hk9 hb ha9, Prod.mk.injEq] at hop
          obtain ⟨rfl, -⟩ := hop
          rcases rest with _ | ⟨b, rest2⟩
          · simp only [feed, Prod.mk.injEq, and_true] at hf1
            subst hf1
            have h1 : frameStart [a] 1 = 2 := by
              simp [frameStart, ballAt_cons_zero, ha]
            have hge := frameStart_add_ge [a] 1 (10 - (st.round_ + 1))
            rw [hsplit, show 10 - (st.round_ + 1) + 1 = 1 + (10 - (st.round_ + 1)) by omega]
            simp only [List.length_cons, List.length_nil]
            constructor
            · intro _; omega
            · intro _; exact hk9
          · obtain ⟨st3, hop2, hf2⟩ := feed_cons hf1
            have hsum := @accepted_second_le { st with pins_ := st.store a, ball_ := 1 } _ _
              hk9 (by simp) hop2
            rw [operator_second ({ st with pins_ := st.store a, ball_ := 1 } : cPlayer) b hk9 rfl
              hsum, Prod.mk.injEq] at hop2
            obtain ⟨rfl, -⟩ := hop2
            have hrest2 : rest2.length ≤ n := by
              simp only [List.length_cons] at hrest; omega
            have h := ih rest2
              ({ st with pins_ := ({ st with pins_ := st.store a, ball_ := 1 } : cPlayer).store b,
                         ball_ := 0, round_ := st.round_ + 1 } : cPlayer) st2 hrest2 rfl
              (show st.round_ + 1 ≤ 10 by omega) hf2
            rw [h, hsplit, frameStart_cons_open a b rest2 ha]
            simp only [List.length_cons]
            omega

/-- C21. After any accepted sequence that has completed ten frames with a
tenth frame that is neither a strike nor a spare, every further ball of at
most 10 pins makes `operator()` throw "6. too many frames", and the state is
left as it was. -/
theorem C21_too_many_frames (bs : List Nat) (st : cPlayer) (hacc : feed ctor bs = (st, none))
    (hdone : st.round_ = 10) (hstrike : st.pins_ 0 9 ≠ 10)
    (hspare : st.pins_ 0 9 + st.pins_ 1 9 ≠ 10) (pins : Nat) (hp : pins ≤ 10) :
    st.operator pins = (st, some "6. too many frames") := by
  have hb10 : st.pins_ 0 10 ≤ 10 := by
    rw [(layout hacc).2.1]
    exact feed_balls_le hacc _
  have h0 : ¬ pins > 10 := by omega
  have h3 : ¬ st.pins_ 0 10 + pins > 20 := by omega
  simp [cPlayer.operator, h0, hdone, h3, hstrike, hspare]

theorem C21_too_many_frames_witness :
    (feed ctor [7, 3, 4, 2, 0, 0, 0, 0, 0, 0, 0, 0, 0, 0, 0, 0, 0, 0, 0, 0]).1.operator 0 =
      ((feed ctor [7, 3, 4, 2, 0, 0, 0, 0, 0, 0, 0, 0, 0, 0, 0, 0, 0, 0, 0, 0]).1,
        some "6. too many frames") :=
  C21_too_many_frames [7, 3, 4, 2, 0, 0, 0, 0, 0, 0, 0, 0, 0, 0, 0, 0, 0, 0, 0, 0] _ rfl
    (by decide) (by decide) (by decide) 0 (by decide)

/-- C22. In the state right after the tenth frame (`round_` 10, `ball_` 0):
if the tenth frame was a strike, two further balls of at most 10 pins are
accepted and a third makes `operator()` throw "4. >2 balls after final
strike"; if it was a spare, one further ball is accepted and a second makes
it throw "5. >1 ball after final spare". The refused ball leaves the state
as it was. -/
theorem C22_bonus_ball_limits (st : cPlayer) (b1 b2 b3 : Nat) (hr : st.round_ = 10)
    (hb : st.ball_ = 0) (h1 : b1 ≤ 10) (h2 : b2 ≤ 10) (h3 : b3 ≤ 10) :
    (st.pins_ 0 9 = 10 →
        ∃ st1 st2, st.operator b1 = (st1, none) ∧ st1.operator b2 = (st2, none) ∧
          st2.operator b3 = (st2, some "4. >2 balls after final strike")) ∧
      (st.pins_ 0 9 ≠ 10 → st.pins_ 0 9 + st.pins_ 1 9 = 10 →
        ∃ st1, st.operator b1 = (st1, none) ∧
          st1.operator b2 = (st1, some "5. >1 ball after final spare")) := by
  have n1 : ¬ b1 > 10 := by omega
  have n2 : ¬ b2 > 10 := by omega
  have n3 : ¬ b3 > 10 := by omega
  have m2 : ¬ b1 + b2 > 20 := by omega
  have m3 : ¬ b1 + b3 > 20 := by omega
  constructor
  · intro hs
    refine ⟨{ st with pins_ := st.store b1, ball_ := 1 },
      { st with pins_ := ({ st with pins_ := st.store b1, ball_ := 1 } : cPlayer).store b2,
                ball_ := 2 }, ?_, ?_, ?_⟩
    · simp [cPlayer.operator, n1, hr, hb, hs]
    · simp [cPlayer.operator, cPlayer.store, n2, hr, hb, hs, m2]
    · simp [cPlayer.operator, cPlayer.store, n3, hr, hb, hs, m3]
  · intro hs hsp
    refine ⟨{ st with pins_ := st.store b1, ball_ := 1 }, ?_, ?_⟩
    · simp [cPlayer.operator, n1, hr, hb, hs, hsp]
    · simp [cPlayer.operator, cPlayer.store, n2, hr, hb, hs, hsp, m2]

theorem C22_bonus_ball_limits_witness :
    (∃ st1 st2,
        (feed ctor [10, 10, 10, 10, 10, 10, 10, 10, 10, 10]).1.operator 10 = (st1, none) ∧
          st1.operator 10 = (st2, none) ∧
          st2.operator 10 = (st2, some "4. >2 balls after final strike")) ∧
      (∃ st1,
        (feed ctor [10, 10, 10, 10, 10, 10, 10, 10, 10, 7, 3]).1.operator 10 = (st1, none) ∧
          st1.operator 10 = (st1, some "5. >1 ball after final spare")) :=
  ⟨(C22_bonus_ball_limits (feed ctor [10, 10, 10, 10, 10, 10, 10, 10, 10, 10]).1 10 10 10
      (by decide) (by decide) (by decide) (by decide) (by decide)).1 (by decide),
    (C22_bonus_ball_limits (feed ctor [10, 10, 10, 10, 10, 10, 10, 10, 10, 7, 3]).1 10 10 10
      (by decide) (by decide) (by decide) (by decide) (by decide)).2 (by decide) (by decide)⟩

/-- C23. After any accepted sequence that ends before ten frames are filled
(the empty sequence included), `display` writes "Error: 7. too few balls",
computes no score and leaves the state as it was. -/
theorem C23_too_few_balls (bs : List Nat) (st : cPlayer) (hacc : feed ctor bs = (st, none))
    (hfew : bs.length < frameStart bs 10) :
    display st = (st, Shown.error "Error: 7. too few balls") := by
  have hr : st.round_ < 10 :=
    (rounds_from bs.length bs ctor st (Nat.le_refl _) rfl (Nat.zero_le 10) hacc).mpr
      (by simpa [ctor] using hfew)
  simp [display, hr]

theorem C23_too_few_balls_witness :
    display (feed ctor []).1 = ((feed ctor []).1, Shown.error "Error: 7. too few balls") ∧
      (display (feed ctor [7, 3, 4, 2, 0, 0, 0, 0, 0, 0, 0, 0, 0, 0, 0, 0, 0, 0, 0]).1).2 =
        Shown.error "Error: 7. too few balls" :=
  ⟨C23_too_few_balls [] _ rfl (by decide), by decide⟩

end nTenPin
